import Mathlib

/-!
Verification of the GeneRaxCore dating/rooting core.

The development shallowly embeds the C++ sources:
  src/maths/ScaledValue.hpp        (extended-range scalar)
  src/trees/DatedTree.cpp/.hpp     (rank-ordered dated tree)
  src/search/DatedSpeciesTreeSearch.cpp (dating hill climb)
  src/search/SpeciesRootSearch.cpp (bounded-depth root search)

Modelling conventions:
  - C++ `double` is modelled by `Rat`.  Every property proved here only
    depends on exact comparisons and on multiplications/divisions by powers
    of two (which are exact in binary floating point in the ranges used),
    so the rational model is faithful for these claims.
  - C++ `unsigned int` arithmetic that can wrap is modelled with explicit
    `% 4294967296` where the wrap can be observed.
  - Fatal assertions are modelled by `Option` results (`none` = assertion
    failure) where a claim mentions them, and by hypotheses (e.g. dated
    mode) elsewhere.
  - External collaborators that are not part of the given sources
    (PLLRootedTree, the RNG service, SpeciesTreeOperator root primitives,
    SpeciesSearchState) are modelled from the spec; each such definition
    carries a doc comment saying so.
-/

/-! ## Extended scalar: src/maths/ScaledValue.hpp -/

/-- `JS_SCALE_FACTOR` is exactly `2^256` (ScaledValue.hpp line 8). -/
def JS_SCALE_FACTOR : ℚ := 2 ^ 256

/-- `JS_SCALE_THRESHOLD = 1 / JS_SCALE_FACTOR` (ScaledValue.hpp line 10). -/
def JS_SCALE_THRESHOLD : ℚ := 1 / JS_SCALE_FACTOR

/-- `NULL_SCALER = INT_MAX / 2 - 1` with C integer division. -/
def NULL_SCALER : Int := 2147483647 / 2 - 1

/-- The `ScaledValue` record: a double value and an int scaler. -/
structure ScaledValue where
  value : ℚ
  scaler : Int
deriving DecidableEq, Repr

/-- The null-value constructor `ScaledValue()`. -/
def ScaledValue.null : ScaledValue := ⟨0, NULL_SCALER⟩

/-- The conversion constructor `ScaledValue(double v)`. -/
def ScaledValue.ofDouble (v : ℚ) : ScaledValue := ⟨v, 0⟩

/-- `isNull()` returns true iff the value field is 0 (the scaler is ignored). -/
def ScaledValue.isNull (v : ScaledValue) : Bool := v.value == 0

/-- `checkNull()`: if the value is 0, set the scaler to `NULL_SCALER`. -/
def ScaledValue.checkNull (v : ScaledValue) : ScaledValue :=
  if v.value = 0 then { v with scaler := NULL_SCALER } else v

/-- `scale()`: if the value is below the threshold, bump the scaler,
multiply the value by the factor and re-check nullness. -/
def ScaledValue.scale (v : ScaledValue) : ScaledValue :=
  if v.value < JS_SCALE_THRESHOLD then
    ScaledValue.checkNull ⟨v.value * JS_SCALE_FACTOR, v.scaler + 1⟩
  else v

/-- `operator<` (ScaledValue.hpp lines 187-195). -/
def ScaledValue.lt (a v : ScaledValue) : Bool :=
  if a.isNull then !v.isNull
  else if !(a.scaler == v.scaler) then decide (v.scaler < a.scaler)
  else decide (a.value < v.value)

/-- `operator<=` (ScaledValue.hpp lines 210-218). -/
def ScaledValue.le (a v : ScaledValue) : Bool :=
  if a.isNull then true
  else if !(a.scaler == v.scaler) then decide (v.scaler < a.scaler)
  else decide (a.value ≤ v.value)

/-- `operator>=` is literally `!(*this < v)` (ScaledValue.hpp lines 220-222). -/
def ScaledValue.ge (a v : ScaledValue) : Bool := !(ScaledValue.lt a v)

/-- `operator>` is literally `!(*this <= v)` (ScaledValue.hpp lines 197-199). -/
def ScaledValue.gt (a v : ScaledValue) : Bool := !(ScaledValue.le a v)

/-- `operator-` (ScaledValue.hpp lines 113-133).  `none` models the fatal
`NegativeSubtraction` assertion.  The C++ tolerance literal `0.0000000001`
is modelled as the exact rational `1 / 10^10`. -/
def ScaledValue.sub (a v : ScaledValue) : Option ScaledValue :=
  if v.scaler == a.scaler then
    if a.value - v.value < 0 then
      if |a.value - v.value| < 1 / 10 ^ 10 then some ScaledValue.null
      else none
    else some (ScaledValue.scale ⟨a.value - v.value, a.scaler⟩)
  else if v.scaler < a.scaler then none
  else some a

/-! ### Claims C7-C10 -/

/-- `scale()` is the identity on values at or above the threshold. -/
theorem ScaledValue.scale_of_not_lt (w : ScaledValue)
    (h : ¬ w.value < JS_SCALE_THRESHOLD) : ScaledValue.scale w = w := by
  unfold ScaledValue.scale
  rw [if_neg h]

/-- C7, counterexample: the claim states that for two null `ScaledValue`s
`a >= b` returns `false`; in the code `null >= null` evaluates to `true`
(since `null < null` is `false` and `>=` is the negation of `<`). -/
theorem C7_ge_null_null_counterexample :
    ¬ (ScaledValue.ge ScaledValue.null ScaledValue.null = false) := by
  simp [ScaledValue.ge, ScaledValue.lt, ScaledValue.null, ScaledValue.isNull]

/-- C7 (amended): `a >= b` is computed as `!(a < b)`, and when both `a` and
`b` are null, `a >= b` returns `true`. -/
theorem C7_ge_spec_amended :
    (∀ a v : ScaledValue, ScaledValue.ge a v = !(ScaledValue.lt a v)) ∧
    (∀ a v : ScaledValue, a.isNull = true → v.isNull = true →
      ScaledValue.ge a v = true) := by
  refine ⟨fun a v => rfl, fun a v ha hv => ?_⟩
  simp [ScaledValue.ge, ScaledValue.lt, ha, hv]

/-- C7 witness: the amended statement evaluated on two concrete nulls. -/
theorem C7_ge_spec_amended_witness :
    ScaledValue.ge ScaledValue.null ScaledValue.null = true :=
  C7_ge_spec_amended.2 ScaledValue.null ScaledValue.null
    (by simp [ScaledValue.isNull, ScaledValue.null])
    (by simp [ScaledValue.isNull, ScaledValue.null])

/-- C8: the subtraction operator.  With equal scalers and a nonnegative
difference it returns the scaled difference; a negative difference inside
the `1e-10` tolerance yields the null value; a negative difference beyond
the tolerance is the fatal `NegativeSubtraction` assertion; a strictly
smaller right scaler is also a fatal assertion; a strictly larger right
scaler returns the left operand unchanged. -/
theorem C8_sub_spec (a v : ScaledValue) :
    (v.scaler = a.scaler → 0 ≤ a.value - v.value →
      ScaledValue.sub a v = some (ScaledValue.scale ⟨a.value - v.value, a.scaler⟩)) ∧
    (v.scaler = a.scaler → a.value - v.value < 0 → |a.value - v.value| < 1 / 10 ^ 10 →
      ScaledValue.sub a v = some ScaledValue.null) ∧
    (v.scaler = a.scaler → a.value - v.value < 0 → ¬ (|a.value - v.value| < 1 / 10 ^ 10) →
      ScaledValue.sub a v = none) ∧
    (v.scaler < a.scaler → ScaledValue.sub a v = none) ∧
    (a.scaler < v.scaler → ScaledValue.sub a v = some a) := by
  refine ⟨fun h1 h2 => ?_, fun h1 h2 h3 => ?_, fun h1 h2 h3 => ?_, fun h1 => ?_, fun h1 => ?_⟩
  · simp [ScaledValue.sub, h1, not_lt.mpr h2]
  · rw [one_div] at h3
    simp [ScaledValue.sub, h1, h2, h3]
  · rw [one_div] at h3
    simp [ScaledValue.sub, h1, h2, h3]
  · have hne : ¬ (v.scaler == a.scaler) = true := by
      simp only [beq_iff_eq]; omega
    simp [ScaledValue.sub, hne, h1]
  · have hne : ¬ (v.scaler == a.scaler) = true := by
      simp only [beq_iff_eq]; omega
    have hlt : ¬ v.scaler < a.scaler := by omega
    simp [ScaledValue.sub, hne, hlt]

/-- C8 witness: a concrete equal-scaler subtraction. -/
theorem C8_sub_spec_witness :
    ScaledValue.sub ⟨3, 0⟩ ⟨1, 0⟩ = some (ScaledValue.scale ⟨(3 : ℚ) - 1, 0⟩) :=
  (C8_sub_spec ⟨3, 0⟩ ⟨1, 0⟩).1 rfl (by norm_num)

/-- A probe value needing more than two scalings to converge. -/
def scaleProbe : ScaledValue := ⟨1 / 2 ^ 768, 0⟩

/-- First scaling step of the probe. -/
theorem scaleProbe_step1 : ScaledValue.scale scaleProbe = ⟨1 / 2 ^ 512, 1⟩ := by
  unfold ScaledValue.scale scaleProbe ScaledValue.checkNull
  rw [if_pos (by norm_num [JS_SCALE_THRESHOLD, JS_SCALE_FACTOR])]
  rw [if_neg (by norm_num [JS_SCALE_FACTOR])]
  simp only [ScaledValue.mk.injEq]
  norm_num [JS_SCALE_FACTOR]

/-- Second scaling step of the probe: the value is still below
the threshold, so both fields change again. -/
theorem scaleProbe_step2 :
    ScaledValue.scale ⟨1 / 2 ^ 512, 1⟩ = ⟨1 / 2 ^ 256, 2⟩ := by
  unfold ScaledValue.scale ScaledValue.checkNull
  rw [if_pos (by norm_num [JS_SCALE_THRESHOLD, JS_SCALE_FACTOR])]
  rw [if_neg (by norm_num [JS_SCALE_FACTOR])]
  simp only [ScaledValue.mk.injEq]
  norm_num [JS_SCALE_FACTOR]

/-- C9, counterexample: `scale()` is not idempotent.  For value `2^(-768)`
the first call yields value `2^(-512)`, which is still below the threshold
`2^(-256)`, so the second call changes both fields again. -/
theorem C9_scale_idempotent_counterexample :
    ¬ (ScaledValue.scale (ScaledValue.scale scaleProbe) = ScaledValue.scale scaleProbe) := by
  rw [scaleProbe_step1, scaleProbe_step2]
  intro h
  have h2 := congrArg ScaledValue.scaler h
  norm_num at h2

/-- C9 (amended): calling `scale()` a second time immediately after a call
to `scale()` leaves both fields unchanged provided the first call converged,
i.e. afterwards the value is zero or at least the threshold. -/
theorem C9_scale_idempotent_amended (v : ScaledValue)
    (h : (ScaledValue.scale v).value = 0 ∨
      JS_SCALE_THRESHOLD ≤ (ScaledValue.scale v).value) :
    ScaledValue.scale (ScaledValue.scale v) = ScaledValue.scale v := by
  have hthr : (0 : ℚ) < JS_SCALE_THRESHOLD := by
    rw [JS_SCALE_THRESHOLD, JS_SCALE_FACTOR]
    positivity
  rcases h with h0 | hge
  · -- after a converging-to-zero first call the state is the canonical null,
    -- which rescaling maps to itself
    have hw : ScaledValue.scale v = ⟨0, NULL_SCALER⟩ := by
      unfold ScaledValue.scale at h0 ⊢
      by_cases hc : v.value < JS_SCALE_THRESHOLD
      · rw [if_pos hc] at h0 ⊢
        unfold ScaledValue.checkNull at h0 ⊢
        by_cases hz : v.value * JS_SCALE_FACTOR = 0
        · rw [if_pos hz]
          simp [ScaledValue.mk.injEq, hz]
        · rw [if_neg hz] at h0
          exact absurd h0 hz
      · rw [if_neg hc] at h0
        exact absurd (by rw [h0]; exact hthr) hc
    rw [hw]
    unfold ScaledValue.scale ScaledValue.checkNull
    rw [if_pos hthr]
    simp
  · exact ScaledValue.scale_of_not_lt _ (not_lt.mpr hge)

/-- C9 witness: the amended statement on a converged concrete value. -/
theorem C9_scale_idempotent_amended_witness :
    ScaledValue.scale (ScaledValue.scale (ScaledValue.ofDouble 1)) =
      ScaledValue.scale (ScaledValue.ofDouble 1) :=
  C9_scale_idempotent_amended (ScaledValue.ofDouble 1)
    (Or.inr (by
      rw [ScaledValue.scale_of_not_lt _
        (by norm_num [ScaledValue.ofDouble, JS_SCALE_THRESHOLD, JS_SCALE_FACTOR])]
      norm_num [ScaledValue.ofDouble, JS_SCALE_THRESHOLD, JS_SCALE_FACTOR]))

/-- C10: nullness in comparisons is decided solely by `value == 0` and the
`NULL_SCALER` sentinel is ignored: any `ScaledValue` with zero value
satisfies `isNull()`, is strictly `<` any `ScaledValue` with nonzero value
(whatever either scaler is), and is `<=` every `ScaledValue`. -/
theorem C10_nullness_value_only (a b : ScaledValue) (ha : a.value = 0) :
    a.isNull = true ∧
    (b.value ≠ 0 → ScaledValue.lt a b = true) ∧
    ScaledValue.le a b = true := by
  have hnull : a.isNull = true := by simp [ScaledValue.isNull, ha]
  refine ⟨hnull, fun hb => ?_, ?_⟩
  · simp only [ScaledValue.lt, hnull]
    simp [ScaledValue.isNull, hb]
  · simp only [ScaledValue.le, hnull]
    simp

/-- C10 witness: zero value with scaler 0 (as produced by `ScaledValue(0.0)`)
against a nonzero value with an arbitrary scaler. -/
theorem C10_nullness_value_only_witness :
    (ScaledValue.mk 0 0).isNull = true ∧
    ScaledValue.lt ⟨0, 0⟩ ⟨5, 3⟩ = true ∧
    ScaledValue.le ⟨0, 0⟩ ⟨5, 3⟩ = true :=
  ⟨(C10_nullness_value_only ⟨0, 0⟩ ⟨5, 3⟩ rfl).1,
   (C10_nullness_value_only ⟨0, 0⟩ ⟨5, 3⟩ rfl).2.1 (by norm_num),
   (C10_nullness_value_only ⟨0, 0⟩ ⟨5, 3⟩ rfl).2.2⟩

/-! ## Rooted binary tree layer

Modelled from the spec: the tree layer (`PLLRootedTree`, `corax_rnode_t`)
is an external collaborator whose implementation is not part of the given
sources.  Per the spec a rooted binary tree has nodes carrying a stable
integer index in `[0, N)`, a parent pointer (nil at the root) and left and
right child pointers (both nil at leaves).  We realize it as an inductive
binary tree of node indices; parent/child pointers and pointer equality
become index lookups (indices are unique in a well-formed tree). -/

inductive BTree where
  | leaf (idx : Nat)
  | node (idx : Nat) (l : BTree) (r : BTree)
deriving DecidableEq, Repr

/-- Index of the root node of a (sub)tree. -/
def BTree.idx : BTree → Nat
  | .leaf j => j
  | .node j _ _ => j

/-- All node indices of the tree (preorder). -/
def BTree.nodesList : BTree → List Nat
  | .leaf j => [j]
  | .node j l r => j :: (l.nodesList ++ r.nodesList)

/-- Indices of the internal (non-leaf) nodes. -/
def BTree.internalsList : BTree → List Nat
  | .leaf _ => []
  | .node j l r => j :: (l.internalsList ++ r.internalsList)

/-- Total number of nodes (`getNodeNumber`). -/
def BTree.size (t : BTree) : Nat := t.nodesList.length

/-- Number of internal nodes (`getInnerNodeNumber`). -/
def BTree.innerCount (t : BTree) : Nat := t.internalsList.length

/-- All (child index, parent index) pairs of the tree. -/
def BTree.childParentPairs : BTree → List (Nat × Nat)
  | .leaf _ => []
  | .node j l r =>
      (l.idx, j) :: (r.idx, j) :: (l.childParentPairs ++ r.childParentPairs)

/-- The parent pointer of the node with index `e` (`getNode(e)->parent`):
`none` for the root (and for an index absent from the tree). -/
def BTree.parentIdx : BTree → Nat → Option Nat
  | .leaf _, _ => none
  | .node j l r, e =>
      if l.idx = e ∨ r.idx = e then some j
      else (l.parentIdx e).orElse (fun _ => r.parentIdx e)

/-- Whether the node with index `e` has a left child (`node->left` non-nil). -/
def BTree.isInternalIdx : BTree → Nat → Bool
  | .leaf _, _ => false
  | .node j l r, e => j == e || l.isInternalIdx e || r.isInternalIdx e

/-- Well-formedness of the external tree: node indices are distinct and
lie in `[0, N)` where `N` is the node count. -/
def BTree.wfT (t : BTree) : Prop :=
  t.nodesList.Nodup ∧ ∀ i ∈ t.nodesList, i < t.nodesList.length

/-! ## RNG service

Modelled from the spec: the RNG is a process-wide injected capability
producing bools and bounded unsigned integers, seedable for tests.  We
model it as a stream of naturals with a cursor. -/

structure Rng where
  seq : Nat → Nat
  pos : Nat

/-- `Random::getInt()` (an unsigned int). -/
def Rng.nextInt (r : Rng) : Nat × Rng :=
  (r.seq r.pos % 4294967296, { r with pos := r.pos + 1 })

/-- `Random::getBool()`. -/
def Rng.nextBool (r : Rng) : Bool × Rng :=
  (r.seq r.pos % 2 == 1, { r with pos := r.pos + 1 })

/-! ## DatedTree: src/trees/DatedTree.cpp -/

/-- `DatedBackup` (src/util/types.hpp line 35): a copy of the ranks. -/
abbrev DatedBackup := List Nat

/-- The mutable state of a `DatedTree`: the `_fromBL` flag, the node
sequence `_orderedSpeciations` (as node indices) and the `_ranks` vector
(indexed by node index).  The wrapped `PLLRootedTree` is passed separately
to each operation. -/
structure DatedTree where
  fromBL : Bool
  orderedSpeciations : List Nat
  ranks : List Nat
deriving DecidableEq, Repr

/-- `DatedTree::moveDown` (DatedTree.cpp lines 72-88).  The bool result is
paired with the (possibly unchanged) state.  The C++ size guard
`rank > size - 2` uses size_t arithmetic; for `size ≥ 2` it is exactly
`rank + 2 > size` (smaller trees make the C++ read out of bounds, so any
total model is admissible there).  The dated-mode assertion is captured as
a hypothesis in the theorems. -/
def DatedTree.moveDown (t : BTree) (s : DatedTree) (rank : Nat) :
    Bool × DatedTree :=
  if rank + 2 > s.orderedSpeciations.length then (false, s)
  else if !t.isInternalIdx (s.orderedSpeciations.getD rank 0)
      || !t.isInternalIdx (s.orderedSpeciations.getD (rank + 1) 0)
      || t.parentIdx (s.orderedSpeciations.getD (rank + 1) 0)
          == some (s.orderedSpeciations.getD rank 0) then
    (false, s)
  else
    (true,
      { s with
        orderedSpeciations :=
          (s.orderedSpeciations.set (rank + 1)
              (s.orderedSpeciations.getD rank 0)).set rank
            (s.orderedSpeciations.getD (rank + 1) 0),
        ranks :=
          (s.ranks.set (s.orderedSpeciations.getD rank 0)
              (s.ranks.getD (s.orderedSpeciations.getD rank 0) 0 + 1)).set
            (s.orderedSpeciations.getD (rank + 1) 0)
            (s.ranks.getD (s.orderedSpeciations.getD (rank + 1) 0) 0 - 1) })

/-- `DatedTree::moveUp` (DatedTree.cpp lines 63-70). -/
def DatedTree.moveUp (t : BTree) (s : DatedTree) (rank : Nat) :
    Bool × DatedTree :=
  if rank = 0 then (false, s) else DatedTree.moveDown t s (rank - 1)

/-- `DatedTree::getBackup` (DatedTree.hpp line 26). -/
def DatedTree.getBackup (s : DatedTree) : DatedBackup := s.ranks

/-- `DatedTree::restore` (DatedTree.cpp lines 107-113): assign the backup
to the ranks, then rewrite each currently listed node to the position the
backup assigns it. -/
def DatedTree.restore (s : DatedTree) (backup : DatedBackup) : DatedTree :=
  { s with
    ranks := backup,
    orderedSpeciations :=
      s.orderedSpeciations.foldl
        (fun os n => os.set (backup.getD n 0) n) s.orderedSpeciations }

/-- `DatedTree::canTransferUnderRelDated` (DatedTree.cpp lines 132-144). -/
def DatedTree.canTransferUnderRelDated (t : BTree) (s : DatedTree)
    (e d : Nat) : Bool :=
  if d = e then false
  else
    match t.parentIdx e with
    | none => true
    | some p => decide (s.ranks.getD p 0 < s.ranks.getD d 0)

/-- One step size bookkeeping: total node count of a worklist. -/
def sumSizes (l : List BTree) : Nat := (l.map BTree.size).sum

/-- The loop of `DatedTree::randomize` (DatedTree.cpp lines 146-165).
The fuel argument is only a termination device: each iteration removes
exactly one node from the worklist measure, so fuel `sumSizes toAdd`
always suffices (see `randomizeLoop_none_left`). -/
def randomizeLoop (fuel : Nat) (rng : Rng) (toAdd : List BTree)
    (currentRank : Nat) (os ranks : List Nat) : List Nat × List Nat × Rng :=
  match fuel with
  | 0 => (os, ranks, rng)
  | fuel + 1 =>
    if toAdd.isEmpty then (os, ranks, rng)
    else
      match toAdd.getD (rng.nextInt.1 % toAdd.length) (BTree.leaf 0) with
      | .node c l r =>
          randomizeLoop fuel rng.nextInt.2
            ((toAdd.set (rng.nextInt.1 % toAdd.length) l) ++ [r])
            (currentRank + 1) (os.set currentRank c) (ranks.set c currentRank)
      | .leaf _ =>
          randomizeLoop fuel rng.nextInt.2
            ((toAdd.set (rng.nextInt.1 % toAdd.length)
                (toAdd.getLastD (BTree.leaf 0))).dropLast)
            currentRank os ranks

/-- `DatedTree::randomize` (DatedTree.cpp lines 146-165). -/
def DatedTree.randomize (t : BTree) (s : DatedTree) (rng : Rng) :
    DatedTree × Rng :=
  let r := randomizeLoop (sumSizes [t]) rng [t] 0 s.orderedSpeciations s.ranks
  ({ s with orderedSpeciations := r.1, ranks := r.2.1 }, r.2.2)

/-! ## List helper lemmas -/

/-- Setting an in-bounds position then reading it back. -/
theorem getD_set_self : ∀ (l : List Nat) (i x : Nat), i < l.length →
    (l.set i x).getD i 0 = x
  | _ :: _, 0, _, _ => rfl
  | _ :: l, i + 1, x, h => getD_set_self l i x (Nat.lt_of_succ_lt_succ h)

/-- Setting one position leaves the others unchanged. -/
theorem getD_set_ne : ∀ (l : List Nat) (i j x : Nat), i ≠ j →
    (l.set i x).getD j 0 = l.getD j 0
  | [], _, _, _, _ => rfl
  | _ :: _, 0, 0, _, h => absurd rfl h
  | _ :: _, 0, _ + 1, _, _ => rfl
  | _ :: _, _ + 1, 0, _, _ => rfl
  | _ :: l, i + 1, j + 1, x, h =>
      getD_set_ne l i j x (fun hh => h (by rw [hh]))

/-- Lists of equal length agreeing at every in-bounds position are equal. -/
theorem list_ext_getD (l₁ : List Nat) : ∀ (l₂ : List Nat),
    l₁.length = l₂.length →
    (∀ i, i < l₁.length → l₁.getD i 0 = l₂.getD i 0) → l₁ = l₂ := by
  induction l₁ with
  | nil =>
    intro l₂ hlen _
    cases l₂ with
    | nil => rfl
    | cons b l₂ => simp at hlen
  | cons a l ih =>
    intro l₂ hlen h
    cases l₂ with
    | nil => simp at hlen
    | cons b l₂ =>
      have h0 : a = b := h 0 (Nat.succ_pos _)
      have ht : l = l₂ := by
        refine ih l₂ (by simpa using hlen) (fun i hi => ?_)
        exact h (i + 1) (Nat.succ_lt_succ hi)
      rw [h0, ht]

/-- In-bounds `getD` is `getElem`. -/
theorem getD_eq_getElem (l : List Nat) (i : Nat) (h : i < l.length) :
    l.getD i 0 = l[i] := by
  simp [List.getD_eq_getElem?_getD, List.getElem?_eq_getElem h]

/-- In-bounds `getD` values are members. -/
theorem getD_mem (l : List Nat) (i : Nat) (h : i < l.length) :
    l.getD i 0 ∈ l := by
  rw [getD_eq_getElem l i h]
  exact l.getElem_mem h

/-- On a duplicate-free list, equal in-bounds `getD` values force equal
positions. -/
theorem nodup_getD_inj (l : List Nat) (hnd : l.Nodup) (i j : Nat)
    (hi : i < l.length) (hj : j < l.length)
    (h : l.getD i 0 = l.getD j 0) : i = j := by
  rw [getD_eq_getElem l i hi, getD_eq_getElem l j hj] at h
  exact (List.Nodup.getElem_inj_iff hnd).mp h

/-- A member sits at some in-bounds position. -/
theorem mem_getD (l : List Nat) (n : Nat) (h : n ∈ l) :
    ∃ i, i < l.length ∧ l.getD i 0 = n := by
  rcases List.mem_iff_getElem.mp h with ⟨i, hi, hgi⟩
  exact ⟨i, hi, by rw [getD_eq_getElem l i hi]; exact hgi⟩

/-- Swapping two adjacent in-bounds entries is a permutation. -/
theorem set_set_swap_perm : ∀ (l : List Nat) (r : Nat), r + 1 < l.length →
    ((l.set (r + 1) (l.getD r 0)).set r (l.getD (r + 1) 0)).Perm l := by
  intro l r
  induction r generalizing l with
  | zero =>
    intro h
    match l, h with
    | a :: b :: l, _ => exact List.Perm.swap a b l
  | succ r ih =>
    intro h
    match l, h with
    | a :: l, h =>
      have hh : r + 1 < l.length := by
        simpa [Nat.succ_lt_succ_iff] using h
      exact (ih l hh).cons a

/-- `take` commutes with setting a position inside the taken prefix. -/
theorem take_set_of_lt : ∀ (l : List Nat) (p x k : Nat), p < k →
    (l.set p x).take k = (l.take k).set p x := by
  intro l
  induction l with
  | nil => intro p x k _; simp
  | cons a l ih =>
    intro p x k hp
    cases p with
    | zero =>
      cases k with
      | zero => omega
      | succ k => simp [List.set, List.take]
    | succ p =>
      cases k with
      | zero => omega
      | succ k =>
        simp only [List.set, List.take, List.cons.injEq, true_and]
        exact ih p x k (Nat.lt_of_succ_lt_succ hp)

/-- `getD` inside the taken prefix. -/
theorem getD_take_of_lt : ∀ (l : List Nat) (i k : Nat), i < k →
    (l.take k).getD i 0 = l.getD i 0 := by
  intro l
  induction l with
  | nil => intro i k _; simp
  | cons a l ih =>
    intro i k hik
    cases k with
    | zero => omega
    | succ k =>
      cases i with
      | zero => rfl
      | succ i => exact ih i k (Nat.lt_of_succ_lt_succ hik)

/-! ## Tree structure lemmas -/

/-- A child in a child-parent pair is a node of the tree. -/
theorem pairs_fst_mem : ∀ (t : BTree) (c p : Nat),
    (c, p) ∈ t.childParentPairs → c ∈ t.nodesList := by
  intro t
  induction t with
  | leaf j => intro c p h; simp [BTree.childParentPairs] at h
  | node j l r ihl ihr =>
    intro c p h
    simp only [BTree.childParentPairs, List.mem_cons, List.mem_append] at h
    rcases h with h | h | h | h
    · cases h
      cases l with
      | leaf i => simp [BTree.nodesList, BTree.idx]
      | node i a b => simp [BTree.nodesList, BTree.idx]
    · cases h
      cases r with
      | leaf i => simp [BTree.nodesList, BTree.idx]
      | node i a b => simp [BTree.nodesList, BTree.idx]
    · simp only [BTree.nodesList, List.mem_cons, List.mem_append]
      exact Or.inr (Or.inl (ihl c p h))
    · simp only [BTree.nodesList, List.mem_cons, List.mem_append]
      exact Or.inr (Or.inr (ihr c p h))

/-- A parent in a child-parent pair is a node of the tree. -/
theorem pairs_snd_mem : ∀ (t : BTree) (c p : Nat),
    (c, p) ∈ t.childParentPairs → p ∈ t.nodesList := by
  intro t
  induction t with
  | leaf j => intro c p h; simp [BTree.childParentPairs] at h
  | node j l r ihl ihr =>
    intro c p h
    simp only [BTree.childParentPairs, List.mem_cons, List.mem_append] at h
    simp only [BTree.nodesList, List.mem_cons, List.mem_append]
    rcases h with h | h | h | h
    · cases h; exact Or.inl rfl
    · cases h; exact Or.inl rfl
    · exact Or.inr (Or.inl (ihl c p h))
    · exact Or.inr (Or.inr (ihr c p h))

/-- The root index is a node. -/
theorem idx_mem_nodesList : ∀ (t : BTree), t.idx ∈ t.nodesList := by
  intro t
  cases t with
  | leaf j => simp [BTree.nodesList, BTree.idx]
  | node j l r => simp [BTree.nodesList, BTree.idx]

/-- `parentIdx` answers are recorded in the child-parent pair list. -/
theorem parentIdx_mem_pairs : ∀ (t : BTree) (c p : Nat),
    t.parentIdx c = some p → (c, p) ∈ t.childParentPairs := by
  intro t
  induction t with
  | leaf j => intro c p h; simp [BTree.parentIdx] at h
  | node j l r ihl ihr =>
    intro c p h
    simp only [BTree.parentIdx] at h
    simp only [BTree.childParentPairs, List.mem_cons, List.mem_append]
    by_cases hc : l.idx = c ∨ r.idx = c
    · rw [if_pos hc] at h
      cases h
      rcases hc with hc | hc
      · exact Or.inl (by rw [hc])
      · exact Or.inr (Or.inl (by rw [hc]))
    · rw [if_neg hc] at h
      cases hl : l.parentIdx c with
      | some q =>
        rw [hl] at h
        simp [Option.orElse] at h
        subst h
        exact Or.inr (Or.inr (Or.inl (ihl c q hl)))
      | none =>
        rw [hl] at h
        simp [Option.orElse] at h
        exact Or.inr (Or.inr (Or.inr (ihr c p h)))

/-- An index that is not a node has no parent. -/
theorem parentIdx_eq_none_of_not_mem : ∀ (t : BTree) (c : Nat),
    c ∉ t.nodesList → t.parentIdx c = none := by
  intro t
  induction t with
  | leaf j => intro c _; rfl
  | node j l r ihl ihr =>
    intro c hc
    simp only [BTree.nodesList, List.mem_cons, List.mem_append, not_or] at hc
    have hcl : c ∉ l.nodesList := hc.2.1
    have hcr : c ∉ r.nodesList := hc.2.2
    simp only [BTree.parentIdx]
    rw [if_neg]
    · rw [ihl c hcl, ihr c hcr]
      rfl
    · rintro (h | h)
      · exact hcl (h ▸ idx_mem_nodesList l)
      · exact hcr (h ▸ idx_mem_nodesList r)

/-- A child recorded in the pairs of a duplicate-free tree is not the root
of that tree. -/
theorem pairs_fst_ne_idx : ∀ (t : BTree) (c p : Nat), t.nodesList.Nodup →
    (c, p) ∈ t.childParentPairs → c ≠ t.idx := by
  intro t c p hnd h
  cases t with
  | leaf j => simp [BTree.childParentPairs] at h
  | node j l r =>
    simp only [BTree.nodesList, List.nodup_cons] at hnd
    have hcm : c ∈ l.nodesList ++ r.nodesList := by
      simp only [BTree.childParentPairs, List.mem_cons, List.mem_append] at h
      rcases h with h | h | h | h
      · cases h; exact List.mem_append.mpr (Or.inl (idx_mem_nodesList l))
      · cases h; exact List.mem_append.mpr (Or.inr (idx_mem_nodesList r))
      · exact List.mem_append.mpr (Or.inl (pairs_fst_mem l c p h))
      · exact List.mem_append.mpr (Or.inr (pairs_fst_mem r c p h))
    intro he
    rw [he] at hcm
    exact hnd.1 hcm

/-- In a duplicate-free tree every recorded child-parent pair is found by
`parentIdx`. -/
theorem pairs_mem_parentIdx : ∀ (t : BTree) (c p : Nat), t.nodesList.Nodup →
    (c, p) ∈ t.childParentPairs → t.parentIdx c = some p := by
  intro t
  induction t with
  | leaf j => intro c p _ h; simp [BTree.childParentPairs] at h
  | node j l r ihl ihr =>
    intro c p hnd h
    have hndl : l.nodesList.Nodup := by
      simp only [BTree.nodesList, List.nodup_cons, List.nodup_append] at hnd
      exact hnd.2.1
    have hndr : r.nodesList.Nodup := by
      simp only [BTree.nodesList, List.nodup_cons, List.nodup_append] at hnd
      exact hnd.2.2.1
    have hdisj : ∀ a, a ∈ l.nodesList → a ∉ r.nodesList := by
      simp only [BTree.nodesList, List.nodup_cons, List.nodup_append] at hnd
      exact fun a ha => hnd.2.2.2 ha
    simp only [BTree.childParentPairs, List.mem_cons, List.mem_append] at h
    simp only [BTree.parentIdx]
    rcases h with h | h | h | h
    · cases h
      rw [if_pos (Or.inl rfl)]
    · cases h
      rw [if_pos (Or.inr rfl)]
    · have hcl : c ∈ l.nodesList := pairs_fst_mem l c p h
      rw [if_neg]
      · rw [ihl c p hndl h]
        rfl
      · rintro (he | he)
        · exact pairs_fst_ne_idx l c p hndl h he.symm
        · exact hdisj c hcl (he ▸ idx_mem_nodesList r)
    · have hcr : c ∈ r.nodesList := pairs_fst_mem r c p h
      rw [if_neg]
      · rw [parentIdx_eq_none_of_not_mem l c (fun hm => hdisj c hm hcr)]
        simp only [Option.orElse, Option.none_orElse]
        exact ihr c p hndr h
      · rintro (he | he)
        · exact hdisj c (he ▸ idx_mem_nodesList l) hcr
        · exact pairs_fst_ne_idx r c p hndr h he.symm

/-- `isInternalIdx` detects exactly the members of `internalsList`. -/
theorem isInternalIdx_iff : ∀ (t : BTree) (e : Nat),
    t.isInternalIdx e = true ↔ e ∈ t.internalsList := by
  intro t
  induction t with
  | leaf j => intro e; simp [BTree.isInternalIdx, BTree.internalsList]
  | node j l r ihl ihr =>
    intro e
    simp only [BTree.isInternalIdx, BTree.internalsList, List.mem_cons,
      List.mem_append, Bool.or_eq_true, beq_iff_eq]
    rw [ihl e, ihr e]
    tauto

/-- Internal nodes are nodes. -/
theorem internalsList_subset_nodesList : ∀ (t : BTree) (e : Nat),
    e ∈ t.internalsList → e ∈ t.nodesList := by
  intro t
  induction t with
  | leaf j => intro e h; simp [BTree.internalsList] at h
  | node j l r ihl ihr =>
    intro e h
    simp only [BTree.internalsList, List.mem_cons, List.mem_append] at h
    simp only [BTree.nodesList, List.mem_cons, List.mem_append]
    rcases h with h | h | h
    · exact Or.inl h
    · exact Or.inr (Or.inl (ihl e h))
    · exact Or.inr (Or.inr (ihr e h))

/-! ## Data-model invariants (spec section 3) -/

/-- `orderedSpeciations[ranks[n]] == n` in position form: the rank of the
node at position `i` is `i`. -/
def rankConsistent (s : DatedTree) : Prop :=
  ∀ i, i < s.orderedSpeciations.length →
    s.ranks.getD (s.orderedSpeciations.getD i 0) 0 = i

/-- Parents come strictly before their children in the rank order. -/
def parentsBefore (t : BTree) (ranks : List Nat) : Prop :=
  ∀ pr ∈ t.childParentPairs, ranks.getD pr.2 0 < ranks.getD pr.1 0

/-- The data-model invariants of a `DatedTree` (spec section 3). -/
def WF (t : BTree) (s : DatedTree) : Prop :=
  s.orderedSpeciations.Perm t.nodesList ∧
  s.ranks.length = t.nodesList.length ∧
  rankConsistent s ∧
  parentsBefore t s.ranks

/-- The extra data-model invariant used by `randomize`: the first `I`
positions of `orderedSpeciations` hold exactly the internal nodes. -/
def WFI (t : BTree) (s : DatedTree) : Prop :=
  WF t s ∧ (s.orderedSpeciations.take t.innerCount).Perm t.internalsList

instance (t : BTree) : Decidable t.wfT := by
  unfold BTree.wfT
  infer_instance

instance (s : DatedTree) : Decidable (rankConsistent s) := by
  unfold rankConsistent
  infer_instance

instance (t : BTree) (ranks : List Nat) : Decidable (parentsBefore t ranks) := by
  unfold parentsBefore
  infer_instance

instance (t : BTree) (s : DatedTree) : Decidable (WF t s) := by
  unfold WF
  infer_instance

/-- Basic facts extracted from `WF`. -/
theorem WF.os_length (t : BTree) (s : DatedTree) (h : WF t s) :
    s.orderedSpeciations.length = t.nodesList.length :=
  h.1.length_eq

/-- The node sequence of a well-formed state is duplicate-free. -/
theorem WF.os_nodup (t : BTree) (s : DatedTree) (hw : t.wfT) (h : WF t s) :
    s.orderedSpeciations.Nodup :=
  h.1.nodup_iff.mpr hw.1

/-- In a well-formed state every node sits at the position its rank says,
and that position is in bounds. -/
theorem WF.rank_pos (t : BTree) (s : DatedTree) (h : WF t s) (n : Nat)
    (hn : n ∈ t.nodesList) :
    ∃ i, i < s.orderedSpeciations.length ∧
      s.orderedSpeciations.getD i 0 = n ∧ s.ranks.getD n 0 = i := by
  have hmem : n ∈ s.orderedSpeciations := h.1.mem_iff.mpr hn
  rcases mem_getD _ n hmem with ⟨i, hi, hgi⟩
  refine ⟨i, hi, hgi, ?_⟩
  have := h.2.2.1 i hi
  rw [hgi] at this
  exact this

/-- Ranks are injective on nodes in a well-formed state. -/
theorem WF.rank_inj (t : BTree) (s : DatedTree) (hw : t.wfT) (h : WF t s)
    (m₁ m₂ : Nat) (h₁ : m₁ ∈ t.nodesList) (h₂ : m₂ ∈ t.nodesList)
    (he : s.ranks.getD m₁ 0 = s.ranks.getD m₂ 0) : m₁ = m₂ := by
  rcases WF.rank_pos t s h m₁ h₁ with ⟨i, hi, hgi, hri⟩
  rcases WF.rank_pos t s h m₂ h₂ with ⟨j, hj, hgj, hrj⟩
  rw [hri, hrj] at he
  rw [← hgi, ← hgj, he]

/-- Node indices are in bounds for the ranks vector. -/
theorem WF.idx_lt_ranks_length (t : BTree) (s : DatedTree) (hw : t.wfT)
    (h : WF t s) (n : Nat) (hn : n ∈ t.nodesList) : n < s.ranks.length := by
  rw [h.2.1]
  exact hw.2 n hn

/-- The node-form of the second data-model invariant:
`orderedSpeciations[ranks[n]] = n` for every node `n`. -/
theorem WF.os_at_rank (t : BTree) (s : DatedTree) (h : WF t s) (n : Nat)
    (hn : n ∈ t.nodesList) :
    s.orderedSpeciations.getD (s.ranks.getD n 0) 0 = n := by
  rcases WF.rank_pos t s h n hn with ⟨i, _, hgi, hri⟩
  rw [hri, hgi]

/-! ## moveDown / moveUp characterization -/

/-- Two `DatedTree`s with equal fields are equal. -/
theorem DatedTree.ext_fields (a b : DatedTree) (h1 : a.fromBL = b.fromBL)
    (h2 : a.orderedSpeciations = b.orderedSpeciations)
    (h3 : a.ranks = b.ranks) : a = b := by
  cases a; cases b; simp_all

/-- The success guard of `moveDown`: in-bounds, both nodes internal, and
the higher-ranked node is not the child of the lower-ranked one. -/
def moveDownOk (t : BTree) (s : DatedTree) (rank : Nat) : Prop :=
  rank + 2 ≤ s.orderedSpeciations.length ∧
  t.isInternalIdx (s.orderedSpeciations.getD rank 0) = true ∧
  t.isInternalIdx (s.orderedSpeciations.getD (rank + 1) 0) = true ∧
  t.parentIdx (s.orderedSpeciations.getD (rank + 1) 0) ≠
    some (s.orderedSpeciations.getD rank 0)

instance (t : BTree) (s : DatedTree) (rank : Nat) :
    Decidable (moveDownOk t s rank) := by
  unfold moveDownOk
  infer_instance

/-- The state produced by a successful `moveDown`. -/
def mdResult (s : DatedTree) (rank : Nat) : DatedTree :=
  { s with
    orderedSpeciations :=
      (s.orderedSpeciations.set (rank + 1)
          (s.orderedSpeciations.getD rank 0)).set rank
        (s.orderedSpeciations.getD (rank + 1) 0),
    ranks :=
      (s.ranks.set (s.orderedSpeciations.getD rank 0)
          (s.ranks.getD (s.orderedSpeciations.getD rank 0) 0 + 1)).set
        (s.orderedSpeciations.getD (rank + 1) 0)
        (s.ranks.getD (s.orderedSpeciations.getD (rank + 1) 0) 0 - 1) }

/-- `moveDown` on a passing guard. -/
theorem moveDown_eq_pos (t : BTree) (s : DatedTree) (rank : Nat)
    (h : moveDownOk t s rank) :
    DatedTree.moveDown t s rank = (true, mdResult s rank) := by
  obtain ⟨h1, h2, h3, h4⟩ := h
  unfold DatedTree.moveDown
  rw [if_neg (by omega)]
  rw [if_neg ?_]
  · rfl
  · show ¬ ((!t.isInternalIdx (s.orderedSpeciations.getD rank 0)
        || !t.isInternalIdx (s.orderedSpeciations.getD (rank + 1) 0)
        || (t.parentIdx (s.orderedSpeciations.getD (rank + 1) 0)
            == some (s.orderedSpeciations.getD rank 0))) = true)
    simp only [Bool.or_eq_true, Bool.not_eq_true', beq_iff_eq]
    simp only [List.getD_eq_getElem?_getD] at h2 h3
    rintro ((hh | hh) | hh)
    · simp [h2] at hh
    · simp [h3] at hh
    · exact h4 hh

/-- `moveDown` on a failing guard. -/
theorem moveDown_eq_neg (t : BTree) (s : DatedTree) (rank : Nat)
    (h : ¬ moveDownOk t s rank) :
    DatedTree.moveDown t s rank = (false, s) := by
  unfold moveDownOk at h
  unfold DatedTree.moveDown
  by_cases hb : rank + 2 > s.orderedSpeciations.length
  · rw [if_pos hb]
  · rw [if_neg hb]
    rw [if_pos]
    push_neg at h
    show (!t.isInternalIdx (s.orderedSpeciations.getD rank 0)
        || !t.isInternalIdx (s.orderedSpeciations.getD (rank + 1) 0)
        || (t.parentIdx (s.orderedSpeciations.getD (rank + 1) 0)
            == some (s.orderedSpeciations.getD rank 0))) = true
    simp only [Bool.or_eq_true, Bool.not_eq_true', beq_iff_eq]
    cases hi1 : t.isInternalIdx (s.orderedSpeciations.getD rank 0) with
    | false => exact Or.inl (Or.inl rfl)
    | true =>
      cases hi2 : t.isInternalIdx (s.orderedSpeciations.getD (rank + 1) 0) with
      | false => exact Or.inl (Or.inr rfl)
      | true => exact Or.inr (h (by omega) hi1 hi2)

/-- A failing `moveDown` performs no mutation. -/
theorem moveDown_no_mutation (t : BTree) (s : DatedTree) (rank : Nat)
    (h : (DatedTree.moveDown t s rank).1 = false) :
    (DatedTree.moveDown t s rank).2 = s := by
  by_cases hok : moveDownOk t s rank
  · rw [moveDown_eq_pos t s rank hok] at h
    simp at h
  · rw [moveDown_eq_neg t s rank hok]

/-- A failing `moveUp` performs no mutation. -/
theorem moveUp_no_mutation (t : BTree) (s : DatedTree) (rank : Nat)
    (h : (DatedTree.moveUp t s rank).1 = false) :
    (DatedTree.moveUp t s rank).2 = s := by
  unfold DatedTree.moveUp at h ⊢
  by_cases h0 : rank = 0
  · rw [if_pos h0]
  · rw [if_neg h0] at h ⊢
    exact moveDown_no_mutation t s (rank - 1) h

/-- Reading the swapped lower position of `mdResult`. -/
theorem mdResult_os_r (s : DatedTree) (r : Nat)
    (h2 : r + 2 ≤ s.orderedSpeciations.length) :
    (mdResult s r).orderedSpeciations.getD r 0 =
      s.orderedSpeciations.getD (r + 1) 0 := by
  unfold mdResult
  exact getD_set_self _ r _ (by rw [List.length_set]; omega)

/-- Reading the swapped upper position of `mdResult`. -/
theorem mdResult_os_r1 (s : DatedTree) (r : Nat)
    (h2 : r + 2 ≤ s.orderedSpeciations.length) :
    (mdResult s r).orderedSpeciations.getD (r + 1) 0 =
      s.orderedSpeciations.getD r 0 := by
  unfold mdResult
  rw [getD_set_ne _ _ _ _ (by omega)]
  exact getD_set_self _ (r + 1) _ (by omega)

/-- Other positions of `mdResult` are untouched. -/
theorem mdResult_os_other (s : DatedTree) (r i : Nat) (hir : i ≠ r)
    (hir1 : i ≠ r + 1) :
    (mdResult s r).orderedSpeciations.getD i 0 =
      s.orderedSpeciations.getD i 0 := by
  unfold mdResult
  rw [getD_set_ne _ _ _ _ (fun hh => hir hh.symm),
    getD_set_ne _ _ _ _ (fun hh => hir1 hh.symm)]

/-- The rank of the node moved away from the root. -/
theorem mdResult_ranks_n1 (s : DatedTree) (r : Nat)
    (hne : s.orderedSpeciations.getD r 0 ≠ s.orderedSpeciations.getD (r + 1) 0)
    (hlt : s.orderedSpeciations.getD r 0 < s.ranks.length) :
    (mdResult s r).ranks.getD (s.orderedSpeciations.getD r 0) 0 =
      s.ranks.getD (s.orderedSpeciations.getD r 0) 0 + 1 := by
  unfold mdResult
  rw [getD_set_ne _ _ _ _ (fun hh => hne hh.symm)]
  exact getD_set_self _ _ _ hlt

/-- The rank of the node moved toward the root. -/
theorem mdResult_ranks_n2 (s : DatedTree) (r : Nat)
    (hlt : s.orderedSpeciations.getD (r + 1) 0 < s.ranks.length) :
    (mdResult s r).ranks.getD (s.orderedSpeciations.getD (r + 1) 0) 0 =
      s.ranks.getD (s.orderedSpeciations.getD (r + 1) 0) 0 - 1 := by
  unfold mdResult
  exact getD_set_self _ _ _ (by rw [List.length_set]; exact hlt)

/-- Other ranks of `mdResult` are untouched. -/
theorem mdResult_ranks_other (s : DatedTree) (r x : Nat)
    (h1 : x ≠ s.orderedSpeciations.getD r 0)
    (h2 : x ≠ s.orderedSpeciations.getD (r + 1) 0) :
    (mdResult s r).ranks.getD x 0 = s.ranks.getD x 0 := by
  unfold mdResult
  rw [getD_set_ne _ _ _ _ (fun hh => h2 hh.symm),
    getD_set_ne _ _ _ _ (fun hh => h1 hh.symm)]

/-- Lengths are preserved by `mdResult`. -/
theorem mdResult_lengths (s : DatedTree) (r : Nat) :
    (mdResult s r).orderedSpeciations.length = s.orderedSpeciations.length ∧
    (mdResult s r).ranks.length = s.ranks.length := by
  unfold mdResult
  simp [List.length_set]

/-- A successful `moveDown` preserves the data-model invariants. -/
theorem mdResult_WF (t : BTree) (s : DatedTree) (r : Nat) (hw : t.wfT)
    (h : WF t s) (hok : moveDownOk t s r) : WF t (mdResult s r) := by
  obtain ⟨hperm, hrlen, hrc, hpb⟩ := h
  have hWF : WF t s := ⟨hperm, hrlen, hrc, hpb⟩
  obtain ⟨hlen2, hint1, hint2, hpar⟩ := hok
  have hr : r < s.orderedSpeciations.length := by omega
  have hr1 : r + 1 < s.orderedSpeciations.length := by omega
  have hosnd : s.orderedSpeciations.Nodup := hperm.nodup_iff.mpr hw.1
  have hn1mem : s.orderedSpeciations.getD r 0 ∈ t.nodesList :=
    hperm.mem_iff.mp (getD_mem _ r hr)
  have hn2mem : s.orderedSpeciations.getD (r + 1) 0 ∈ t.nodesList :=
    hperm.mem_iff.mp (getD_mem _ (r + 1) hr1)
  have hne : s.orderedSpeciations.getD r 0 ≠ s.orderedSpeciations.getD (r + 1) 0 := by
    intro he
    have := nodup_getD_inj _ hosnd r (r + 1) hr hr1 he
    omega
  have hrk1 : s.ranks.getD (s.orderedSpeciations.getD r 0) 0 = r := hrc r hr
  have hrk2 : s.ranks.getD (s.orderedSpeciations.getD (r + 1) 0) 0 = r + 1 :=
    hrc (r + 1) hr1
  have hlt1 : s.orderedSpeciations.getD r 0 < s.ranks.length := by
    rw [hrlen]; exact hw.2 _ hn1mem
  have hlt2 : s.orderedSpeciations.getD (r + 1) 0 < s.ranks.length := by
    rw [hrlen]; exact hw.2 _ hn2mem
  have hg1 : (mdResult s r).ranks.getD (s.orderedSpeciations.getD r 0) 0 = r + 1 := by
    rw [mdResult_ranks_n1 s r hne hlt1, hrk1]
  have hg2 : (mdResult s r).ranks.getD (s.orderedSpeciations.getD (r + 1) 0) 0 = r := by
    rw [mdResult_ranks_n2 s r hlt2, hrk2]
    omega
  have hn2pairs : ((s.orderedSpeciations.getD (r + 1) 0),
      (s.orderedSpeciations.getD r 0)) ∉ t.childParentPairs := by
    intro hc
    exact hpar (pairs_mem_parentIdx t _ _ hw.1 hc)
  refine ⟨?_, ?_, ?_, ?_⟩
  · -- permutation with the node list
    unfold mdResult
    exact (set_set_swap_perm s.orderedSpeciations r hr1).trans hperm
  · -- ranks length
    rw [(mdResult_lengths s r).2, hrlen]
  · -- rank-position consistency
    intro i hi
    rw [(mdResult_lengths s r).1] at hi
    by_cases hir : i = r
    · rw [hir, mdResult_os_r s r hlen2, hg2]
    · by_cases hir1 : i = r + 1
      · rw [hir1, mdResult_os_r1 s r hlen2, hg1]
      · rw [mdResult_os_other s r i hir hir1]
        have hmne1 : s.orderedSpeciations.getD i 0 ≠ s.orderedSpeciations.getD r 0 := by
          intro he
          exact hir (nodup_getD_inj _ hosnd i r hi hr he)
        have hmne2 : s.orderedSpeciations.getD i 0 ≠
            s.orderedSpeciations.getD (r + 1) 0 := by
          intro he
          exact hir1 (nodup_getD_inj _ hosnd i (r + 1) hi hr1 he)
        rw [mdResult_ranks_other s r _ hmne1 hmne2]
        exact hrc i hi
  · -- parent-before-child
    rintro ⟨c, p⟩ hmem
    have hcn : c ∈ t.nodesList := pairs_fst_mem t c p hmem
    have hpn : p ∈ t.nodesList := pairs_snd_mem t c p hmem
    have hold : s.ranks.getD p 0 < s.ranks.getD c 0 := hpb (c, p) hmem
    have hpc : p ≠ c := by
      intro he
      rw [he] at hold
      omega
    by_cases hc1 : c = s.orderedSpeciations.getD r 0
    · subst hc1
      have hp1 : p ≠ s.orderedSpeciations.getD r 0 := hpc
      have hp2 : p ≠ s.orderedSpeciations.getD (r + 1) 0 := by
        intro he
        rw [he, hrk2, hrk1] at hold
        omega
      rw [hg1, mdResult_ranks_other s r p hp1 hp2]
      rw [hrk1] at hold
      omega
    · by_cases hc2 : c = s.orderedSpeciations.getD (r + 1) 0
      · subst hc2
        have hp1 : p ≠ s.orderedSpeciations.getD r 0 := by
          intro he
          exact hn2pairs (he ▸ hmem)
        have hp2 : p ≠ s.orderedSpeciations.getD (r + 1) 0 := hpc
        rw [hg2, mdResult_ranks_other s r p hp1 hp2]
        rw [hrk2] at hold
        have hpr : s.ranks.getD p 0 ≠ r := by
          intro he
          exact hp1 (WF.rank_inj t s hw hWF p _ hpn hn1mem (by rw [he, hrk1]))
        omega
      · rw [mdResult_ranks_other s r c hc1 hc2]
        by_cases hp1 : p = s.orderedSpeciations.getD r 0
        · subst hp1
          rw [hg1]
          rw [hrk1] at hold
          have hcr1 : s.ranks.getD c 0 ≠ r + 1 := by
            intro he
            exact hc2 (WF.rank_inj t s hw hWF c _ hcn hn2mem (by rw [he, hrk2]))
          omega
        · by_cases hp2 : p = s.orderedSpeciations.getD (r + 1) 0
          · subst hp2
            rw [hg2]
            rw [hrk2] at hold
            omega
          · rw [mdResult_ranks_other s r p hp1 hp2]
            exact hold

/-- `moveDown` preserves the data-model invariants. -/
theorem moveDown_WF (t : BTree) (s : DatedTree) (r : Nat) (hw : t.wfT)
    (h : WF t s) : WF t (DatedTree.moveDown t s r).2 := by
  by_cases hok : moveDownOk t s r
  · rw [moveDown_eq_pos t s r hok]
    exact mdResult_WF t s r hw h hok
  · rw [moveDown_eq_neg t s r hok]
    exact h

/-- `moveUp` preserves the data-model invariants. -/
theorem moveUp_WF (t : BTree) (s : DatedTree) (r : Nat) (hw : t.wfT)
    (h : WF t s) : WF t (DatedTree.moveUp t s r).2 := by
  unfold DatedTree.moveUp
  by_cases h0 : r = 0
  · rw [if_pos h0]
    exact h
  · rw [if_neg h0]
    exact moveDown_WF t s (r - 1) hw h

/-- `moveDown` and `moveUp` preserve the `fromBL` flag. -/
theorem moveDown_fromBL (t : BTree) (s : DatedTree) (r : Nat) :
    (DatedTree.moveDown t s r).2.fromBL = s.fromBL := by
  by_cases hok : moveDownOk t s r
  · rw [moveDown_eq_pos t s r hok]
    rfl
  · rw [moveDown_eq_neg t s r hok]

/-- `moveUp` preserves the `fromBL` flag. -/
theorem moveUp_fromBL (t : BTree) (s : DatedTree) (r : Nat) :
    (DatedTree.moveUp t s r).2.fromBL = s.fromBL := by
  unfold DatedTree.moveUp
  by_cases h0 : r = 0
  · rw [if_pos h0]
  · rw [if_neg h0]
    exact moveDown_fromBL t s (r - 1)

/-- A successful `moveDown` immediately repeated succeeds again and
restores the state exactly. -/
theorem moveDown_invol (t : BTree) (s : DatedTree) (r : Nat) (hw : t.wfT)
    (h : WF t s) (hok : moveDownOk t s r) :
    moveDownOk t (mdResult s r) r ∧ mdResult (mdResult s r) r = s := by
  obtain ⟨hperm, hrlen, hrc, hpb⟩ := h
  obtain ⟨hlen2, hint1, hint2, hpar⟩ := hok
  have hr : r < s.orderedSpeciations.length := by omega
  have hr1 : r + 1 < s.orderedSpeciations.length := by omega
  have hosnd : s.orderedSpeciations.Nodup := hperm.nodup_iff.mpr hw.1
  have hn1mem : s.orderedSpeciations.getD r 0 ∈ t.nodesList :=
    hperm.mem_iff.mp (getD_mem _ r hr)
  have hn2mem : s.orderedSpeciations.getD (r + 1) 0 ∈ t.nodesList :=
    hperm.mem_iff.mp (getD_mem _ (r + 1) hr1)
  have hne : s.orderedSpeciations.getD r 0 ≠ s.orderedSpeciations.getD (r + 1) 0 := by
    intro he
    have := nodup_getD_inj _ hosnd r (r + 1) hr hr1 he
    omega
  have hrk1 : s.ranks.getD (s.orderedSpeciations.getD r 0) 0 = r := hrc r hr
  have hrk2 : s.ranks.getD (s.orderedSpeciations.getD (r + 1) 0) 0 = r + 1 :=
    hrc (r + 1) hr1
  have hlt1 : s.orderedSpeciations.getD r 0 < s.ranks.length := by
    rw [hrlen]; exact hw.2 _ hn1mem
  have hlt2 : s.orderedSpeciations.getD (r + 1) 0 < s.ranks.length := by
    rw [hrlen]; exact hw.2 _ hn2mem
  have hosr : (mdResult s r).orderedSpeciations.getD r 0 =
      s.orderedSpeciations.getD (r + 1) 0 := mdResult_os_r s r hlen2
  have hosr1 : (mdResult s r).orderedSpeciations.getD (r + 1) 0 =
      s.orderedSpeciations.getD r 0 := mdResult_os_r1 s r hlen2
  have hlen2b : r + 2 ≤ (mdResult s r).orderedSpeciations.length := by
    rw [(mdResult_lengths s r).1]; exact hlen2
  have hok2 : moveDownOk t (mdResult s r) r := by
    refine ⟨hlen2b, ?_, ?_, ?_⟩
    · rw [hosr]; exact hint2
    · rw [hosr1]; exact hint1
    · rw [hosr1, hosr]
      intro hp
      have hpp := parentIdx_mem_pairs t _ _ hp
      have := hpb _ hpp
      rw [hrk1, hrk2] at this
      omega
  refine ⟨hok2, ?_⟩
  have hrk1b : (mdResult s r).ranks.getD (s.orderedSpeciations.getD r 0) 0 =
      s.ranks.getD (s.orderedSpeciations.getD r 0) 0 + 1 :=
    mdResult_ranks_n1 s r hne hlt1
  have hrk2b : (mdResult s r).ranks.getD (s.orderedSpeciations.getD (r + 1) 0) 0 =
      s.ranks.getD (s.orderedSpeciations.getD (r + 1) 0) 0 - 1 :=
    mdResult_ranks_n2 s r hlt2
  refine DatedTree.ext_fields _ _ rfl ?_ ?_
  · -- the node sequence is restored
    refine list_ext_getD _ _ ?_ ?_
    · rw [(mdResult_lengths (mdResult s r) r).1, (mdResult_lengths s r).1]
    · intro i hi
      rw [(mdResult_lengths (mdResult s r) r).1, (mdResult_lengths s r).1] at hi
      by_cases hir : i = r
      · rw [hir, mdResult_os_r (mdResult s r) r hlen2b, hosr1]
      · by_cases hir1 : i = r + 1
        · rw [hir1, mdResult_os_r1 (mdResult s r) r hlen2b, hosr]
        · rw [mdResult_os_other (mdResult s r) r i hir hir1,
            mdResult_os_other s r i hir hir1]
  · -- the ranks are restored
    refine list_ext_getD _ _ ?_ ?_
    · rw [(mdResult_lengths (mdResult s r) r).2, (mdResult_lengths s r).2]
    · intro j hj
      rw [(mdResult_lengths (mdResult s r) r).2, (mdResult_lengths s r).2] at hj
      by_cases hj1 : j = s.orderedSpeciations.getD r 0
      · -- the first moved node gets its rank back
        have hstep : (mdResult (mdResult s r) r).ranks.getD
            ((mdResult s r).orderedSpeciations.getD (r + 1) 0) 0 =
            (mdResult s r).ranks.getD
              ((mdResult s r).orderedSpeciations.getD (r + 1) 0) 0 - 1 := by
          refine mdResult_ranks_n2 (mdResult s r) r ?_
          rw [hosr1, (mdResult_lengths s r).2]
          exact hlt1
        rw [hosr1] at hstep
        rw [hj1, hstep, hrk1b]
        omega
      · by_cases hj2 : j = s.orderedSpeciations.getD (r + 1) 0
        · -- the second moved node gets its rank back
          have hneb : (mdResult s r).orderedSpeciations.getD r 0 ≠
              (mdResult s r).orderedSpeciations.getD (r + 1) 0 := by
            rw [hosr, hosr1]
            exact fun he => hne he.symm
          have hstep : (mdResult (mdResult s r) r).ranks.getD
              ((mdResult s r).orderedSpeciations.getD r 0) 0 =
              (mdResult s r).ranks.getD
                ((mdResult s r).orderedSpeciations.getD r 0) 0 + 1 := by
            refine mdResult_ranks_n1 (mdResult s r) r hneb ?_
            rw [hosr, (mdResult_lengths s r).2]
            exact hlt2
          rw [hosr] at hstep
          rw [hj2, hstep, hrk2b, hrk2]
          omega
        · -- untouched nodes
          have hja : j ≠ (mdResult s r).orderedSpeciations.getD r 0 := by
            rw [hosr]; exact hj2
          have hjb : j ≠ (mdResult s r).orderedSpeciations.getD (r + 1) 0 := by
            rw [hosr1]; exact hj1
          rw [mdResult_ranks_other (mdResult s r) r j hja hjb,
            mdResult_ranks_other s r j hj1 hj2]

/-- A successful `moveUp` immediately repeated succeeds again and restores
the state exactly (shared involution helper). -/
theorem moveUp_invol (t : BTree) (s : DatedTree) (r : Nat) (hw : t.wfT)
    (h : WF t s) (hs : (DatedTree.moveUp t s r).1 = true) :
    (DatedTree.moveUp t (DatedTree.moveUp t s r).2 r).1 = true ∧
    (DatedTree.moveUp t (DatedTree.moveUp t s r).2 r).2 = s := by
  cases r with
  | zero => simp [DatedTree.moveUp] at hs
  | succ rr =>
    have hred : ∀ s' : DatedTree,
        DatedTree.moveUp t s' (rr + 1) = DatedTree.moveDown t s' rr := by
      intro s'
      unfold DatedTree.moveUp
      rw [if_neg (Nat.succ_ne_zero rr)]
      rfl
    rw [hred] at hs ⊢
    rw [hred]
    by_cases hok : moveDownOk t s rr
    · obtain ⟨hok2, hrest⟩ := moveDown_invol t s rr hw h hok
      rw [moveDown_eq_pos t s rr hok]
      simp only
      rw [moveDown_eq_pos t (mdResult s rr) rr hok2]
      exact ⟨rfl, hrest⟩
    · rw [moveDown_eq_neg t s rr hok] at hs
      simp at hs

/-! ## Claims C3, C4, C6 -/

/-- One public rank mutation: a `moveUp` or `moveDown` call. -/
inductive DOp where
  | up (r : Nat)
  | down (r : Nat)
deriving DecidableEq, Repr

/-- Apply one mutation, keeping the state whether it succeeded or not. -/
def applyOp (t : BTree) (s : DatedTree) : DOp → DatedTree
  | .up r => (DatedTree.moveUp t s r).2
  | .down r => (DatedTree.moveDown t s r).2

/-- Apply a sequence of mutations. -/
def applyOps (t : BTree) (ops : List DOp) (s : DatedTree) : DatedTree :=
  ops.foldl (applyOp t) s

/-- Any sequence of `moveUp`/`moveDown` calls preserves the data-model
invariants. -/
theorem applyOps_WF (t : BTree) (ops : List DOp) (hw : t.wfT) :
    ∀ s : DatedTree, WF t s → WF t (applyOps t ops s) := by
  induction ops with
  | nil => intro s h; exact h
  | cons op ops ih =>
    intro s h
    have h1 : WF t (applyOp t s op) := by
      cases op with
      | up r => exact moveUp_WF t s r hw h
      | down r => exact moveDown_WF t s r hw h
    exact ih (applyOp t s op) h1

/-- The sample tree from spec scenario S1: `((A,B),(C,D))` with the root
at index 0, internal nodes 1 and 2, and leaves 3-6. -/
def sampleTree : BTree :=
  BTree.node 0 (BTree.node 1 (BTree.leaf 3) (BTree.leaf 4))
    (BTree.node 2 (BTree.leaf 5) (BTree.leaf 6))

/-- The corresponding dated state with ranks root=0, left=1, right=2. -/
def sampleState : DatedTree :=
  { fromBL := true,
    orderedSpeciations := [0, 1, 2, 3, 4, 5, 6],
    ranks := [0, 1, 2, 3, 4, 5, 6] }

/-- C3: on a dated tree satisfying the data-model invariants, any sequence
of `moveUp`/`moveDown` calls preserves both invariants (parents strictly
before children, and `orderedSpeciations[ranks[n]] = n` for every node),
and any call returning false performs no mutation at all. -/
theorem C3_moves_preserve_invariants (t : BTree) (s : DatedTree)
    (ops : List DOp) (hw : t.wfT) (h : WF t s) (_hd : s.fromBL = true) :
    (∀ c p, t.parentIdx c = some p →
      (applyOps t ops s).ranks.getD p 0 < (applyOps t ops s).ranks.getD c 0) ∧
    (∀ n ∈ t.nodesList,
      (applyOps t ops s).orderedSpeciations.getD
        ((applyOps t ops s).ranks.getD n 0) 0 = n) ∧
    (∀ s' r, (DatedTree.moveUp t s' r).1 = false →
      (DatedTree.moveUp t s' r).2 = s') ∧
    (∀ s' r, (DatedTree.moveDown t s' r).1 = false →
      (DatedTree.moveDown t s' r).2 = s') := by
  have hWF : WF t (applyOps t ops s) := applyOps_WF t ops hw s h
  refine ⟨?_, ?_, ?_, ?_⟩
  · intro c p hp
    exact hWF.2.2.2 (c, p) (parentIdx_mem_pairs t c p hp)
  · intro n hn
    exact WF.os_at_rank t _ hWF n hn
  · intro s' r hr
    exact moveUp_no_mutation t s' r hr
  · intro s' r hr
    exact moveDown_no_mutation t s' r hr

/-- C3 witness: a concrete mixed sequence of moves on the sample tree. -/
theorem C3_moves_preserve_invariants_witness :
    (∀ c p, sampleTree.parentIdx c = some p →
      (applyOps sampleTree [DOp.up 2, DOp.down 1, DOp.up 1, DOp.down 5]
          sampleState).ranks.getD p 0 <
        (applyOps sampleTree [DOp.up 2, DOp.down 1, DOp.up 1, DOp.down 5]
          sampleState).ranks.getD c 0) ∧
    (∀ n ∈ sampleTree.nodesList,
      (applyOps sampleTree [DOp.up 2, DOp.down 1, DOp.up 1, DOp.down 5]
          sampleState).orderedSpeciations.getD
        ((applyOps sampleTree [DOp.up 2, DOp.down 1, DOp.up 1, DOp.down 5]
          sampleState).ranks.getD n 0) 0 = n) ∧
    (∀ s' r, (DatedTree.moveUp sampleTree s' r).1 = false →
      (DatedTree.moveUp sampleTree s' r).2 = s') ∧
    (∀ s' r, (DatedTree.moveDown sampleTree s' r).1 = false →
      (DatedTree.moveDown sampleTree s' r).2 = s') :=
  C3_moves_preserve_invariants sampleTree sampleState
    [DOp.up 2, DOp.down 1, DOp.up 1, DOp.down 5]
    (by decide) (by decide) (by decide)

/-- C4: on a dated tree whose ranks satisfy the data-model invariants, a
successful `moveUp(r)` immediately followed by another `moveUp(r)` succeeds
and restores `ranks` and `orderedSpeciations` exactly. -/
theorem C4_moveUp_involutive (t : BTree) (s : DatedTree) (r : Nat)
    (hw : t.wfT) (h : WF t s) (_hd : s.fromBL = true)
    (hs : (DatedTree.moveUp t s r).1 = true) :
    (DatedTree.moveUp t (DatedTree.moveUp t s r).2 r).1 = true ∧
    (DatedTree.moveUp t (DatedTree.moveUp t s r).2 r).2 = s :=
  moveUp_invol t s r hw h hs

/-- C4 witness: scenario S1, `moveUp(2)` twice on the sample tree. -/
theorem C4_moveUp_involutive_witness :
    (DatedTree.moveUp sampleTree
        (DatedTree.moveUp sampleTree sampleState 2).2 2).1 = true ∧
    (DatedTree.moveUp sampleTree
        (DatedTree.moveUp sampleTree sampleState 2).2 2).2 = sampleState :=
  C4_moveUp_involutive sampleTree sampleState 2
    (by decide) (by decide) (by decide) (by decide)

/-- C6: `canTransferUnderRelDated(e, d)` returns false when `d = e`;
returns true when `e` has no parent and `d ≠ e`; otherwise returns true
exactly when `rank(d) > rank(parent(e))`; in particular it returns true
when `d` is a leaf child of `e`. -/
theorem C6_canTransfer_spec (t : BTree) (s : DatedTree) (hw : t.wfT)
    (h : WF t s) (_hd : s.fromBL = true) :
    (∀ e, DatedTree.canTransferUnderRelDated t s e e = false) ∧
    (∀ e d, t.parentIdx e = none → d ≠ e →
      DatedTree.canTransferUnderRelDated t s e d = true) ∧
    (∀ e d p, t.parentIdx e = some p → d ≠ e →
      (DatedTree.canTransferUnderRelDated t s e d = true ↔
        s.ranks.getD p 0 < s.ranks.getD d 0)) ∧
    (∀ e d, t.parentIdx d = some e → t.isInternalIdx d = false →
      DatedTree.canTransferUnderRelDated t s e d = true) := by
  have hpairs : ∀ c p, t.parentIdx c = some p →
      s.ranks.getD p 0 < s.ranks.getD c 0 := by
    intro c p hp
    exact h.2.2.2 (c, p) (parentIdx_mem_pairs t c p hp)
  refine ⟨?_, ?_, ?_, ?_⟩
  · intro e
    simp [DatedTree.canTransferUnderRelDated]
  · intro e d hpe hde
    unfold DatedTree.canTransferUnderRelDated
    rw [if_neg hde, hpe]
  · intro e d p hpe hde
    unfold DatedTree.canTransferUnderRelDated
    rw [if_neg hde, hpe]
    simp
  · intro e d hpd _hleaf
    have hde : d ≠ e := by
      intro he
      have := hpairs d e hpd
      rw [he] at this
      omega
    have hrank1 : s.ranks.getD e 0 < s.ranks.getD d 0 := hpairs d e hpd
    unfold DatedTree.canTransferUnderRelDated
    rw [if_neg hde]
    cases hpe : t.parentIdx e with
    | none => rfl
    | some p =>
      have hrank2 : s.ranks.getD p 0 < s.ranks.getD e 0 := hpairs e p hpe
      exact decide_eq_true (by omega)

/-- C6 witness: the scenario S2 facts on the sample tree. -/
theorem C6_canTransfer_spec_witness :
    DatedTree.canTransferUnderRelDated sampleTree sampleState 3 3 = false ∧
    DatedTree.canTransferUnderRelDated sampleTree sampleState 0 5 = true ∧
    (DatedTree.canTransferUnderRelDated sampleTree sampleState 1 5 = true ↔
      sampleState.ranks.getD 0 0 < sampleState.ranks.getD 5 0) ∧
    DatedTree.canTransferUnderRelDated sampleTree sampleState 1 4 = true :=
  ⟨(C6_canTransfer_spec sampleTree sampleState (by decide) (by decide)
      (by decide)).1 3,
   (C6_canTransfer_spec sampleTree sampleState (by decide) (by decide)
      (by decide)).2.1 0 5 (by decide) (by decide),
   (C6_canTransfer_spec sampleTree sampleState (by decide) (by decide)
      (by decide)).2.2.1 1 5 0 (by decide) (by decide),
   (C6_canTransfer_spec sampleTree sampleState (by decide) (by decide)
      (by decide)).2.2.2 1 4 (by decide) (by decide)⟩

/-! ## Restore: exactness of the backup round trip -/

/-- `getD` through `map`. -/
theorem getD_map (f : Nat → Nat) (l : List Nat) (i : Nat) (h : i < l.length) :
    (l.map f).getD i 0 = f (l.getD i 0) := by
  rw [getD_eq_getElem _ _ (by simpa using h), getD_eq_getElem _ _ h]
  simp

/-- The generic write-back fold: if the keys of `l` are duplicate-free,
agree with `target`, and every position is either written by `l` or already
correct in `acc`, the fold reproduces `target` exactly. -/
theorem foldl_set_gen (key : Nat → Nat) (target : List Nat) :
    ∀ (l acc : List Nat),
    acc.length = target.length →
    (l.map key).Nodup →
    (∀ n ∈ l, key n < target.length ∧ target.getD (key n) 0 = n) →
    (∀ p, p < target.length → p ∈ l.map key ∨ acc.getD p 0 = target.getD p 0) →
    l.foldl (fun os n => os.set (key n) n) acc = target := by
  intro l
  induction l with
  | nil =>
    intro acc hlen _ _ hcov
    refine list_ext_getD acc target hlen (fun i hi => ?_)
    rcases hcov i (hlen ▸ hi) with hmem | heq
    · simp at hmem
    · exact heq
  | cons n l ih =>
    intro acc hlen hnd hmem hcov
    have hkey : key n < target.length ∧ target.getD (key n) 0 = n :=
      hmem n (List.mem_cons_self n l)
    show l.foldl (fun os n => os.set (key n) n) (acc.set (key n) n) = target
    refine ih (acc.set (key n) n) (by rw [List.length_set]; exact hlen) ?_ ?_ ?_
    · simp only [List.map_cons, List.nodup_cons] at hnd
      exact hnd.2
    · exact fun m hm => hmem m (List.mem_cons_of_mem n hm)
    · intro p hp
      by_cases hpk : p = key n
      · right
        rw [hpk, getD_set_self acc (key n) n (hlen ▸ hkey.1), hkey.2]
      · rcases hcov p hp with hc | hc
        · simp only [List.map_cons, List.mem_cons] at hc
          rcases hc with hc | hc
          · exact absurd hc hpk
          · exact Or.inl hc
        · right
          rw [getD_set_ne acc (key n) p n (fun hh => hpk hh.symm)]
          exact hc

/-- `restore` against a backup taken at a well-formed state reproduces that
state exactly, from any state whose node sequence is a permutation of the
backup-time one. -/
theorem restore_roundtrip (s0 s : DatedTree)
    (hrc : rankConsistent s0) (hnd : s0.orderedSpeciations.Nodup)
    (hperm : s.orderedSpeciations.Perm s0.orderedSpeciations)
    (hbl : s.fromBL = s0.fromBL) :
    DatedTree.restore s s0.ranks = s0 := by
  have hlen : s.orderedSpeciations.length = s0.orderedSpeciations.length :=
    hperm.length_eq
  have hmapeq : s0.orderedSpeciations.map (fun n => s0.ranks.getD n 0) =
      List.range s0.orderedSpeciations.length := by
    refine list_ext_getD _ _ (by simp) (fun i hi => ?_)
    rw [List.length_map] at hi
    rw [getD_map _ _ i hi, hrc i hi]
    rw [getD_eq_getElem _ _ (by simpa using hi)]
    simp
  have hmapperm : (s.orderedSpeciations.map (fun n => s0.ranks.getD n 0)).Perm
      (List.range s0.orderedSpeciations.length) := by
    rw [← hmapeq]
    exact hperm.map _
  refine DatedTree.ext_fields _ _ hbl ?_ rfl
  show (s.orderedSpeciations.foldl
      (fun os n => os.set (s0.ranks.getD n 0) n) s.orderedSpeciations) =
    s0.orderedSpeciations
  refine foldl_set_gen (fun n => s0.ranks.getD n 0) s0.orderedSpeciations
    s.orderedSpeciations s.orderedSpeciations hlen ?_ ?_ ?_
  · exact hmapperm.nodup_iff.mpr (List.nodup_range _)
  · intro n hn
    rcases mem_getD s0.orderedSpeciations n (hperm.mem_iff.mp hn) with ⟨i, hi, hgi⟩
    have hki : s0.ranks.getD n 0 = i := by
      have := hrc i hi
      rw [hgi] at this
      exact this
    refine ⟨?_, ?_⟩
    · show s0.ranks.getD n 0 < s0.orderedSpeciations.length
      rw [hki]; exact hi
    · show s0.orderedSpeciations.getD (s0.ranks.getD n 0) 0 = n
      rw [hki, hgi]
  · intro p hp
    left
    exact hmapperm.mem_iff.mpr (List.mem_range.mpr hp)

/-! ## Randomize: permutation bookkeeping -/

/-- Writing a prefix of values starting at a cursor (the shape of the
`orderedSpeciations` writes performed by the randomize loop). -/
def listOverwrite (os : List Nat) (cur : Nat) : List Nat → List Nat
  | [] => os
  | n :: rest => listOverwrite (os.set cur n) (cur + 1) rest

/-- Setting a position then taking one past it appends the new value. -/
theorem take_set_succ : ∀ (l : List Nat) (cur n : Nat), cur < l.length →
    (l.set cur n).take (cur + 1) = l.take cur ++ [n] := by
  intro l
  induction l with
  | nil => intro cur n h; simp at h
  | cons a l ih =>
    intro cur n h
    cases cur with
    | zero => rfl
    | succ cur =>
      simp only [List.set, List.take_succ_cons, List.cons_append, List.cons.injEq,
        true_and]
      exact ih cur n (Nat.lt_of_succ_lt_succ h)

/-- Dropping strictly past a written position ignores the write. -/
theorem drop_set_of_lt : ∀ (l : List Nat) (p x k : Nat), p < k →
    (l.set p x).drop k = l.drop k := by
  intro l
  induction l with
  | nil => intro p x k _; simp
  | cons a l ih =>
    intro p x k hpk
    cases p with
    | zero =>
      cases k with
      | zero => omega
      | succ k => simp [List.set]
    | succ p =>
      cases k with
      | zero => omega
      | succ k =>
        simp only [List.set, List.drop_succ_cons]
        exact ih p x k (Nat.lt_of_succ_lt_succ hpk)

/-- The overwrite as a take/middle/drop decomposition. -/
theorem listOverwrite_eq_append : ∀ (placed os : List Nat) (cur : Nat),
    cur + placed.length ≤ os.length →
    listOverwrite os cur placed =
      os.take cur ++ placed ++ os.drop (cur + placed.length) := by
  intro placed
  induction placed with
  | nil =>
    intro os cur h
    simp [listOverwrite]
  | cons n rest ih =>
    intro os cur h
    simp only [List.length_cons] at h
    have hcur : cur < os.length := by omega
    show listOverwrite (os.set cur n) (cur + 1) rest = _
    rw [ih (os.set cur n) (cur + 1) (by rw [List.length_set]; omega)]
    rw [take_set_succ os cur n hcur]
    rw [drop_set_of_lt os cur n (cur + 1 + rest.length) (by omega)]
    have harith : cur + 1 + rest.length = cur + (rest.length + 1) := by omega
    rw [harith]
    simp [List.append_assoc]

/-! ## Generic list surgery lemmas used by the randomize bookkeeping -/

/-- Setting inside the left part of an append. -/
theorem set_append_left {α : Type} : ∀ (l₁ l₂ : List α) (i : Nat) (x : α),
    i < l₁.length → (l₁ ++ l₂).set i x = l₁.set i x ++ l₂ := by
  intro l₁
  induction l₁ with
  | nil => intro l₂ i x h; simp at h
  | cons a l ih =>
    intro l₂ i x h
    cases i with
    | zero => rfl
    | succ i =>
      show a :: (l ++ l₂).set i x = a :: (l.set i x ++ l₂)
      rw [ih l₂ i x (Nat.lt_of_succ_lt_succ h)]

/-- Reading inside the left part of an append. -/
theorem getD_append_left {α : Type} : ∀ (l₁ l₂ : List α) (i : Nat) (d : α),
    i < l₁.length → (l₁ ++ l₂).getD i d = l₁.getD i d := by
  intro l₁
  induction l₁ with
  | nil => intro l₂ i d h; simp at h
  | cons a l ih =>
    intro l₂ i d h
    cases i with
    | zero => rfl
    | succ i => exact ih l₂ i d (Nat.lt_of_succ_lt_succ h)

/-- Reading the appended last element. -/
theorem getD_concat_length {α : Type} : ∀ (l : List α) (a : α) (d : α),
    (l ++ [a]).getD l.length d = a := by
  intro l
  induction l with
  | nil => intro a d; rfl
  | cons b l ih => intro a d; exact ih a d

/-- Setting a position to its current value is the identity. -/
theorem set_getD_self_eq {α : Type} : ∀ (l : List α) (i : Nat) (d : α),
    i < l.length → l.set i (l.getD i d) = l := by
  intro l
  induction l with
  | nil => intro i d h; simp at h
  | cons a l ih =>
    intro i d h
    cases i with
    | zero => rfl
    | succ i =>
      simp only [List.set, List.getD_cons_succ, List.cons.injEq, true_and]
      exact ih i d (Nat.lt_of_succ_lt_succ h)

/-- A nonempty list splits into its dropLast and its last element. -/
theorem dropLast_concat_getLastD {α : Type} : ∀ (l : List α) (d : α),
    l ≠ [] → l.dropLast ++ [l.getLastD d] = l := by
  intro l
  induction l with
  | nil => intro d h; exact absurd rfl h
  | cons a l ih =>
    intro d h
    cases l with
    | nil => rfl
    | cons b l =>
      show a :: ((b :: l).dropLast ++ [(a :: b :: l).getLastD d]) = a :: (b :: l)
      rw [List.getLastD_cons]
      rw [ih a (by simp)]

/-! ## Flattened internals of a worklist -/

/-- The concatenated internal-node indices of a worklist of subtrees. -/
def flatInternals : List BTree → List Nat
  | [] => []
  | t :: ts => t.internalsList ++ flatInternals ts

/-- Every tree holds at least its root node. -/
theorem size_pos (t : BTree) : 1 ≤ t.size := by
  cases t <;> simp [BTree.size, BTree.nodesList]

/-- Size of an internal node. -/
theorem size_node (c : Nat) (a b : BTree) :
    (BTree.node c a b).size = a.size + b.size + 1 := by
  simp [BTree.size, BTree.nodesList]

/-- `sumSizes` over a cons. -/
theorem sumSizes_cons (t : BTree) (l : List BTree) :
    sumSizes (t :: l) = t.size + sumSizes l := by
  simp [sumSizes]

/-- `sumSizes` over appending one element. -/
theorem sumSizes_concat (l : List BTree) (r : BTree) :
    sumSizes (l ++ [r]) = sumSizes l + r.size := by
  simp [sumSizes]

/-- Replacing a worklist element: additive size bookkeeping. -/
theorem sumSizes_set : ∀ (l : List BTree) (i : Nat) (x : BTree),
    i < l.length →
    sumSizes (l.set i x) + (l.getD i (BTree.leaf 0)).size =
      sumSizes l + x.size := by
  intro l
  induction l with
  | nil => intro i x h; simp at h
  | cons a l ih =>
    intro i x h
    cases i with
    | zero =>
      simp only [List.set, List.getD_cons_zero, sumSizes_cons]
      omega
    | succ i =>
      simp only [List.set, List.getD_cons_succ, sumSizes_cons]
      have := ih i x (Nat.lt_of_succ_lt_succ h)
      omega

/-- `flatInternals` distributes over append. -/
theorem flatInternals_append : ∀ (l₁ l₂ : List BTree),
    flatInternals (l₁ ++ l₂) = flatInternals l₁ ++ flatInternals l₂ := by
  intro l₁
  induction l₁ with
  | nil => intro l₂; rfl
  | cons a l ih =>
    intro l₂
    show a.internalsList ++ flatInternals (l ++ l₂) =
      (a.internalsList ++ flatInternals l) ++ flatInternals l₂
    rw [ih, List.append_assoc]

/-- `flatInternals` of a one-element worklist. -/
theorem flatInternals_single (r : BTree) :
    flatInternals [r] = r.internalsList := by
  show r.internalsList ++ [] = r.internalsList
  exact List.append_nil _

/-- Replacing a worklist element permutes the flattened internals. -/
theorem flatInternals_set_perm : ∀ (l : List BTree) (i : Nat) (x : BTree),
    i < l.length →
    (flatInternals (l.set i x) ++
        (l.getD i (BTree.leaf 0)).internalsList).Perm
      (flatInternals l ++ x.internalsList) := by
  intro l
  induction l with
  | nil => intro i x h; simp at h
  | cons a l ih =>
    intro i x h
    cases i with
    | zero =>
      show ((x.internalsList ++ flatInternals l) ++ a.internalsList).Perm
        ((a.internalsList ++ flatInternals l) ++ x.internalsList)
      refine List.Perm.trans List.perm_append_comm ?_
      refine List.Perm.trans
        (List.Perm.append_left a.internalsList List.perm_append_comm) ?_
      rw [← List.append_assoc]
    | succ i =>
      show ((a.internalsList ++ flatInternals (l.set i x)) ++
          (l.getD i (BTree.leaf 0)).internalsList).Perm
        ((a.internalsList ++ flatInternals l) ++ x.internalsList)
      rw [List.append_assoc, List.append_assoc]
      exact List.Perm.append_left a.internalsList
        (ih i x (Nat.lt_of_succ_lt_succ h))

/-- Removing the chosen leaf by the back-swap: size bookkeeping. -/
theorem sumSizes_removeswap (l : List BTree) (i : Nat) (hi : i < l.length)
    (hne : l ≠ []) :
    sumSizes ((l.set i (l.getLastD (BTree.leaf 0))).dropLast)
        + (l.getD i (BTree.leaf 0)).size = sumSizes l := by
  have hsplit := dropLast_concat_getLastD l (BTree.leaf 0) hne
  have h4 : sumSizes l =
      sumSizes l.dropLast + (l.getLastD (BTree.leaf 0)).size := by
    conv_lhs => rw [← hsplit]
    exact sumSizes_concat _ _
  by_cases hlast : i < l.dropLast.length
  · have h1 : l.set i (l.getLastD (BTree.leaf 0)) =
        l.dropLast.set i (l.getLastD (BTree.leaf 0))
          ++ [l.getLastD (BTree.leaf 0)] := by
      have hgen : ∀ (m : List BTree) (L : BTree), m = l.dropLast ++ [L] →
          m.set i L = l.dropLast.set i L ++ [L] := by
        intro m L hm
        rw [hm]
        exact set_append_left _ _ i _ hlast
      exact hgen l (l.getLastD (BTree.leaf 0)) hsplit.symm
    rw [h1, List.dropLast_concat]
    have h2 : l.getD i (BTree.leaf 0) = l.dropLast.getD i (BTree.leaf 0) := by
      conv_lhs => rw [← hsplit]
      exact getD_append_left _ _ i _ hlast
    rw [h2]
    have h3 := sumSizes_set l.dropLast i (l.getLastD (BTree.leaf 0)) hlast
    omega
  · have hieq : i = l.dropLast.length := by
      have : l.length = l.dropLast.length + 1 := by
        conv_lhs => rw [← hsplit]
        simp
      omega
    have hgl : l.getD i (BTree.leaf 0) = l.getLastD (BTree.leaf 0) := by
      conv_lhs => rw [← hsplit, hieq]
      exact getD_concat_length _ _ _
    have h1 : l.set i (l.getLastD (BTree.leaf 0)) = l := by
      rw [← hgl]
      exact set_getD_self_eq l i (BTree.leaf 0) hi
    rw [h1, hgl]
    omega

/-- Removing the chosen leaf by the back-swap: internals bookkeeping. -/
theorem flatInternals_removeswap (l : List BTree) (i : Nat)
    (hi : i < l.length) (hne : l ≠ []) :
    (flatInternals ((l.set i (l.getLastD (BTree.leaf 0))).dropLast)
        ++ (l.getD i (BTree.leaf 0)).internalsList).Perm
      (flatInternals l) := by
  have hsplit := dropLast_concat_getLastD l (BTree.leaf 0) hne
  have hF : flatInternals l =
      flatInternals l.dropLast ++ (l.getLastD (BTree.leaf 0)).internalsList := by
    conv_lhs => rw [← hsplit]
    rw [flatInternals_append, flatInternals_single]
  by_cases hlast : i < l.dropLast.length
  · have h1 : l.set i (l.getLastD (BTree.leaf 0)) =
        l.dropLast.set i (l.getLastD (BTree.leaf 0))
          ++ [l.getLastD (BTree.leaf 0)] := by
      have hgen : ∀ (m : List BTree) (L : BTree), m = l.dropLast ++ [L] →
          m.set i L = l.dropLast.set i L ++ [L] := by
        intro m L hm
        rw [hm]
        exact set_append_left _ _ i _ hlast
      exact hgen l (l.getLastD (BTree.leaf 0)) hsplit.symm
    rw [h1, List.dropLast_concat]
    have h2 : l.getD i (BTree.leaf 0) = l.dropLast.getD i (BTree.leaf 0) := by
      conv_lhs => rw [← hsplit]
      exact getD_append_left _ _ i _ hlast
    rw [h2, hF]
    exact flatInternals_set_perm l.dropLast i _ hlast
  · have hieq : i = l.dropLast.length := by
      have : l.length = l.dropLast.length + 1 := by
        conv_lhs => rw [← hsplit]
        simp
      omega
    have hgl : l.getD i (BTree.leaf 0) = l.getLastD (BTree.leaf 0) := by
      conv_lhs => rw [← hsplit, hieq]
      exact getD_concat_length _ _ _
    have h1 : l.set i (l.getLastD (BTree.leaf 0)) = l := by
      rw [← hgl]
      exact set_getD_self_eq l i (BTree.leaf 0) hi
    rw [h1, hgl, hF]

/-- Characterization of the randomize loop: with sufficient fuel (which
`randomize` always supplies) the loop writes some permutation of the
internal nodes of the worklist at consecutive positions from the cursor. -/
theorem randomizeLoop_spec : ∀ (fuel : Nat) (rng : Rng) (toAdd : List BTree)
    (cur : Nat) (os ranks : List Nat), sumSizes toAdd ≤ fuel →
    ∃ placed : List Nat, placed.Perm (flatInternals toAdd) ∧
      (randomizeLoop fuel rng toAdd cur os ranks).1 =
        listOverwrite os cur placed := by
  intro fuel
  induction fuel with
  | zero =>
    intro rng toAdd cur os ranks hf
    have htoAdd : toAdd = [] := by
      cases toAdd with
      | nil => rfl
      | cons a l =>
        have := size_pos a
        rw [sumSizes_cons] at hf
        omega
    subst htoAdd
    exact ⟨[], List.Perm.refl _, rfl⟩
  | succ fuel ih =>
    intro rng toAdd cur os ranks hf
    by_cases hemp : toAdd.isEmpty
    · have he : toAdd = [] := by
        cases toAdd with
        | nil => rfl
        | cons a l => simp [List.isEmpty] at hemp
      subst he
      refine ⟨[], List.Perm.refl _, ?_⟩
      show (randomizeLoop (fuel + 1) rng [] cur os ranks).1 = os
      simp [randomizeLoop]
    · have hne : toAdd ≠ [] := by
        intro hh
        rw [hh] at hemp
        exact hemp rfl
      have hlen0 : 0 < toAdd.length := List.length_pos.mpr hne
      have hi : rng.nextInt.1 % toAdd.length < toAdd.length :=
        Nat.mod_lt _ hlen0
      have hstep : randomizeLoop (fuel + 1) rng toAdd cur os ranks =
          match toAdd.getD (rng.nextInt.1 % toAdd.length) (BTree.leaf 0) with
          | .node c l r =>
              randomizeLoop fuel rng.nextInt.2
                ((toAdd.set (rng.nextInt.1 % toAdd.length) l) ++ [r])
                (cur + 1) (os.set cur c) (ranks.set c cur)
          | .leaf _ =>
              randomizeLoop fuel rng.nextInt.2
                ((toAdd.set (rng.nextInt.1 % toAdd.length)
                    (toAdd.getLastD (BTree.leaf 0))).dropLast)
                cur os ranks := by
        show (if toAdd.isEmpty then (os, ranks, rng)
            else match toAdd.getD (rng.nextInt.1 % toAdd.length) (BTree.leaf 0) with
              | .node c l r =>
                  randomizeLoop fuel rng.nextInt.2
                    ((toAdd.set (rng.nextInt.1 % toAdd.length) l) ++ [r])
                    (cur + 1) (os.set cur c) (ranks.set c cur)
              | .leaf _ =>
                  randomizeLoop fuel rng.nextInt.2
                    ((toAdd.set (rng.nextInt.1 % toAdd.length)
                        (toAdd.getLastD (BTree.leaf 0))).dropLast)
                    cur os ranks) = _
        rw [if_neg (by simp [hemp])]
      cases hnode : toAdd.getD (rng.nextInt.1 % toAdd.length) (BTree.leaf 0) with
      | node c a b =>
        have hres : randomizeLoop (fuel + 1) rng toAdd cur os ranks =
            randomizeLoop fuel rng.nextInt.2
              ((toAdd.set (rng.nextInt.1 % toAdd.length) a) ++ [b])
              (cur + 1) (os.set cur c) (ranks.set c cur) := by
          rw [hstep, hnode]
        have hsum : sumSizes
            ((toAdd.set (rng.nextInt.1 % toAdd.length) a) ++ [b]) ≤ fuel := by
          have h1 := sumSizes_set toAdd (rng.nextInt.1 % toAdd.length) a hi
          rw [hnode, size_node] at h1
          have h2 := sumSizes_concat (toAdd.set (rng.nextInt.1 % toAdd.length) a) b
          omega
        obtain ⟨placed, hpm, hpr⟩ := ih rng.nextInt.2 _ (cur + 1)
          (os.set cur c) (ranks.set c cur) hsum
        refine ⟨c :: placed, ?_, ?_⟩
        · have hFsplit : flatInternals
              ((toAdd.set (rng.nextInt.1 % toAdd.length) a) ++ [b]) =
              flatInternals (toAdd.set (rng.nextInt.1 % toAdd.length) a)
                ++ b.internalsList := by
            rw [flatInternals_append, flatInternals_single]
          have hsetp := flatInternals_set_perm toAdd
            (rng.nextInt.1 % toAdd.length) a hi
          rw [hnode] at hsetp
          have hint : (BTree.node c a b).internalsList =
              c :: (a.internalsList ++ b.internalsList) := rfl
          rw [hint] at hsetp
          have p1 : ((c :: (flatInternals
                (toAdd.set (rng.nextInt.1 % toAdd.length) a)
                ++ b.internalsList)) ++ a.internalsList).Perm
              (flatInternals toAdd ++ a.internalsList) := by
            show (c :: ((flatInternals (toAdd.set (rng.nextInt.1 % toAdd.length) a)
                ++ b.internalsList) ++ a.internalsList)).Perm _
            rw [List.append_assoc]
            refine List.Perm.trans (List.Perm.cons c
              (List.Perm.append_left _ List.perm_append_comm)) ?_
            exact List.Perm.trans List.perm_middle.symm hsetp
          have p2 : (c :: (flatInternals
                (toAdd.set (rng.nextInt.1 % toAdd.length) a)
                ++ b.internalsList)).Perm (flatInternals toAdd) :=
            (List.perm_append_right_iff _).mp p1
          exact ((hFsplit ▸ hpm).cons c).trans p2
        · rw [hres, hpr]
          rfl
      | leaf w =>
        have hres : randomizeLoop (fuel + 1) rng toAdd cur os ranks =
            randomizeLoop fuel rng.nextInt.2
              ((toAdd.set (rng.nextInt.1 % toAdd.length)
                  (toAdd.getLastD (BTree.leaf 0))).dropLast)
              cur os ranks := by
          rw [hstep, hnode]
        have hsum : sumSizes ((toAdd.set (rng.nextInt.1 % toAdd.length)
            (toAdd.getLastD (BTree.leaf 0))).dropLast) ≤ fuel := by
          have h1 := sumSizes_removeswap toAdd
            (rng.nextInt.1 % toAdd.length) hi hne
          rw [hnode] at h1
          have h2 : (BTree.leaf w).size = 1 := rfl
          omega
        obtain ⟨placed, hpm, hpr⟩ := ih rng.nextInt.2 _ cur os ranks hsum
        refine ⟨placed, ?_, by rw [hres, hpr]⟩
        have hrm := flatInternals_removeswap toAdd
          (rng.nextInt.1 % toAdd.length) hi hne
        rw [hnode] at hrm
        have hleaf : (BTree.leaf w).internalsList = [] := rfl
        rw [hleaf, List.append_nil] at hrm
        exact hpm.trans hrm

/-- `randomize` writes a permutation of the internal nodes into the first
positions of `orderedSpeciations` and keeps `fromBL`. -/
theorem randomize_spec (t : BTree) (s : DatedTree) (rng : Rng) :
    ∃ placed : List Nat, placed.Perm t.internalsList ∧
      (DatedTree.randomize t s rng).1.orderedSpeciations =
        listOverwrite s.orderedSpeciations 0 placed ∧
      (DatedTree.randomize t s rng).1.fromBL = s.fromBL := by
  obtain ⟨placed, hp, hr⟩ := randomizeLoop_spec (sumSizes [t]) rng [t] 0
    s.orderedSpeciations s.ranks (le_refl _)
  refine ⟨placed, ?_, hr, rfl⟩
  rw [← flatInternals_single t]
  exact hp

/-! ## C5: backup/restore round-trip across arbitrary mutation sequences -/

/-- The invariant carried across a mutation sequence: the node sequence
stays a permutation of its backup-time value, its first `innerCount`
positions stay a permutation of the internal nodes (needed to re-enter
`randomize`), and `fromBL` is untouched. -/
def seqInv (t : BTree) (s0 s : DatedTree) : Prop :=
  s.orderedSpeciations.Perm s0.orderedSpeciations ∧
  (s.orderedSpeciations.take t.innerCount).Perm t.internalsList ∧
  s.fromBL = s0.fromBL

/-- On a duplicate-free sequence whose prefix carries the internal nodes,
an internal node sits inside that prefix. -/
theorem pos_lt_inner (t : BTree) (os : List Nat) (hnd : os.Nodup)
    (htk : (os.take t.innerCount).Perm t.internalsList)
    (i : Nat) (hi : i < os.length)
    (hmem : os.getD i 0 ∈ t.internalsList) : i < t.innerCount := by
  have hmem' : os.getD i 0 ∈ os.take t.innerCount := htk.mem_iff.mpr hmem
  obtain ⟨j, hj, hgj⟩ := mem_getD (os.take t.innerCount) (os.getD i 0) hmem'
  rw [List.length_take] at hj
  have hgj' : os.getD j 0 = os.getD i 0 := by
    rw [← getD_take_of_lt os j t.innerCount (by omega)]
    exact hgj
  have := nodup_getD_inj os hnd j i (by omega) hi hgj'
  omega

/-- `moveDown` preserves the sequence invariant. -/
theorem seqInv_moveDown (t : BTree) (s0 : DatedTree) (hw : t.wfT)
    (h0 : s0.orderedSpeciations.Perm t.nodesList)
    (s : DatedTree) (r : Nat) (h : seqInv t s0 s) :
    seqInv t s0 (DatedTree.moveDown t s r).2 := by
  obtain ⟨hos, htk, hbl⟩ := h
  by_cases hok : moveDownOk t s r
  · rw [moveDown_eq_pos t s r hok]
    obtain ⟨h1, h2, h3, _⟩ := hok
    have hnd : s.orderedSpeciations.Nodup :=
      ((hos.trans h0).nodup_iff).mpr hw.1
    have hm1 : s.orderedSpeciations.getD r 0 ∈ t.internalsList :=
      (isInternalIdx_iff t _).mp h2
    have hm2 : s.orderedSpeciations.getD (r + 1) 0 ∈ t.internalsList :=
      (isInternalIdx_iff t _).mp h3
    have hrI : r < t.innerCount :=
      pos_lt_inner t _ hnd htk r (by omega) hm1
    have hr1I : r + 1 < t.innerCount :=
      pos_lt_inner t _ hnd htk (r + 1) (by omega) hm2
    refine ⟨?_, ?_, hbl⟩
    · exact (set_set_swap_perm s.orderedSpeciations r (by omega)).trans hos
    · show ((((s.orderedSpeciations.set (r + 1)
          (s.orderedSpeciations.getD r 0)).set r
          (s.orderedSpeciations.getD (r + 1) 0))).take t.innerCount).Perm
        t.internalsList
      rw [take_set_of_lt _ r _ t.innerCount hrI,
          take_set_of_lt _ (r + 1) _ t.innerCount hr1I]
      have e1 : s.orderedSpeciations.getD r 0 =
          (s.orderedSpeciations.take t.innerCount).getD r 0 :=
        (getD_take_of_lt _ r _ hrI).symm
      have e2 : s.orderedSpeciations.getD (r + 1) 0 =
          (s.orderedSpeciations.take t.innerCount).getD (r + 1) 0 :=
        (getD_take_of_lt _ (r + 1) _ hr1I).symm
      rw [e1, e2]
      refine (set_set_swap_perm _ r ?_).trans htk
      rw [List.length_take]
      omega
  · rw [moveDown_eq_neg t s r hok]
    exact ⟨hos, htk, hbl⟩

/-- `moveUp` preserves the sequence invariant. -/
theorem seqInv_moveUp (t : BTree) (s0 : DatedTree) (hw : t.wfT)
    (h0 : s0.orderedSpeciations.Perm t.nodesList)
    (s : DatedTree) (r : Nat) (h : seqInv t s0 s) :
    seqInv t s0 (DatedTree.moveUp t s r).2 := by
  unfold DatedTree.moveUp
  by_cases hr : r = 0
  · rw [if_pos hr]
    exact h
  · rw [if_neg hr]
    exact seqInv_moveDown t s0 hw h0 s (r - 1) h

/-- `randomize` preserves the sequence invariant. -/
theorem seqInv_randomize (t : BTree) (s0 : DatedTree)
    (s : DatedTree) (rng : Rng) (h : seqInv t s0 s) :
    seqInv t s0 (DatedTree.randomize t s rng).1 := by
  obtain ⟨hos, htk, hbl⟩ := h
  obtain ⟨placed, hperm, hres, hfb⟩ := randomize_spec t s rng
  have hplen : placed.length = t.innerCount := by
    rw [hperm.length_eq]
    rfl
  have hIle : t.innerCount ≤ s.orderedSpeciations.length := by
    have hl := htk.length_eq
    rw [List.length_take] at hl
    have hIC : t.internalsList.length = t.innerCount := rfl
    rw [hIC] at hl
    omega
  have hsplit : (DatedTree.randomize t s rng).1.orderedSpeciations =
      placed ++ s.orderedSpeciations.drop t.innerCount := by
    rw [hres, listOverwrite_eq_append placed s.orderedSpeciations 0 (by omega)]
    simp [hplen]
  refine ⟨?_, ?_, by rw [hfb]; exact hbl⟩
  · rw [hsplit]
    have h1 : placed.Perm (s.orderedSpeciations.take t.innerCount) :=
      hperm.trans htk.symm
    have h2 : (placed ++ s.orderedSpeciations.drop t.innerCount).Perm
        (s.orderedSpeciations.take t.innerCount ++
          s.orderedSpeciations.drop t.innerCount) :=
      h1.append_right _
    rw [List.take_append_drop] at h2
    exact h2.trans hos
  · rw [hsplit, ← hplen, List.take_left]
    exact hperm

/-- One mutation of the C5 claim: `moveUp`, `moveDown` or `randomize`
(the latter threads the RNG). -/
inductive ROp where
  | up (r : Nat)
  | down (r : Nat)
  | rand
deriving DecidableEq, Repr

/-- Apply one mutation to the state/RNG pair. -/
def applyROp (t : BTree) : DatedTree × Rng → ROp → DatedTree × Rng
  | (s, rng), .up r => ((DatedTree.moveUp t s r).2, rng)
  | (s, rng), .down r => ((DatedTree.moveDown t s r).2, rng)
  | (s, rng), .rand => DatedTree.randomize t s rng

/-- Apply a sequence of mutations. -/
def applyROps (t : BTree) (ops : List ROp) (p : DatedTree × Rng) :
    DatedTree × Rng :=
  ops.foldl (applyROp t) p

/-- The sequence invariant survives any mutation sequence. -/
theorem seqInv_applyROps (t : BTree) (s0 : DatedTree) (hw : t.wfT)
    (h0 : s0.orderedSpeciations.Perm t.nodesList) :
    ∀ (ops : List ROp) (s : DatedTree) (rng : Rng), seqInv t s0 s →
      seqInv t s0 (applyROps t ops (s, rng)).1 := by
  intro ops
  induction ops with
  | nil => intro s rng h; exact h
  | cons op rest ih =>
    intro s rng h
    show seqInv t s0 (applyROps t rest (applyROp t (s, rng) op)).1
    cases op with
    | up r => exact ih _ rng (seqInv_moveUp t s0 hw h0 s r h)
    | down r => exact ih _ rng (seqInv_moveDown t s0 hw h0 s r h)
    | rand =>
      exact ih (DatedTree.randomize t s rng).1
        (DatedTree.randomize t s rng).2 (seqInv_randomize t s0 s rng h)

instance (t : BTree) (s : DatedTree) : Decidable (WFI t s) := by
  unfold WFI
  infer_instance

/-- **C5**: on a well-formed dated state, `getBackup` followed by any
sequence of `moveUp`, `moveDown` and `randomize` calls followed by
`restore(backup)` reproduces the original `ranks` and
`orderedSpeciations` (and `fromBL`): the round-trip is exact because the
mutations only permute the node sequence. -/
theorem C5_backup_restore_roundtrip (t : BTree) (s0 : DatedTree)
    (ops : List ROp) (rng : Rng) (hw : t.wfT) (h : WFI t s0) :
    DatedTree.restore (applyROps t ops (s0, rng)).1
      (DatedTree.getBackup s0) = s0 := by
  have hinv : seqInv t s0 (applyROps t ops (s0, rng)).1 :=
    seqInv_applyROps t s0 hw h.1.1 ops s0 rng
      ⟨List.Perm.refl _, h.2, rfl⟩
  have hnd : s0.orderedSpeciations.Nodup := (h.1.1.nodup_iff).mpr hw.1
  exact restore_roundtrip s0 _ h.1.2.2.1 hnd hinv.1 hinv.2.2

/-- C5 witness: the sample tree, a concrete RNG stream and a concrete
mutation sequence containing all three mutation kinds. -/
theorem C5_backup_restore_roundtrip_witness :
    sampleTree.wfT ∧ WFI sampleTree sampleState ∧
    DatedTree.restore
      (applyROps sampleTree [ROp.up 2, ROp.rand, ROp.down 1]
        (sampleState, ⟨fun _ => 0, 0⟩)).1
      (DatedTree.getBackup sampleState) = sampleState :=
  ⟨by decide, by decide,
    C5_backup_restore_roundtrip sampleTree sampleState
      [ROp.up 2, ROp.rand, ROp.down 1] ⟨fun _ => 0, 0⟩
      (by decide) (by decide)⟩

/-! ## C2: optimizeDatesLocal (DatedSpeciesTreeSearch.cpp lines 17-63) -/

/-- Modelled from the spec: `SpeciesSearchState` (external to this
repository) carries the best likelihood saved so far and the
`farFromPlausible` flag; `betterTreeCallback(ll, ...)` records `ll` as the
new best likelihood (and saves the tree, which has no further effect on
this search). -/
structure SSState where
  bestLL : ℚ
  farFromPlausible : Bool
deriving DecidableEq, Repr

/-- Modelled from the spec: the state update of
`SpeciesSearchState::betterTreeCallback`. -/
def betterTreeCallback (ll : ℚ) (ss : SSState) : SSState :=
  { ss with bestLL := ll }

/-- The optional-searchState update performed after each accepted
likelihood evaluation (`if (searchState && ll > searchState->bestLL)`). -/
def odlUpdateState (ll : ℚ) : Option SSState → Option SSState
  | none => none
  | some ss => if ss.bestLL < ll then some (betterTreeCallback ll ss) else some ss

/-- The inner `for (rank = 0; rank < maxRank; ++rank)` loop of
`optimizeDatesLocal` (DatedSpeciesTreeSearch.cpp lines 32-51), with the
likelihood evaluator abstracted as a deterministic function `f` of the
dated state.  `rank -= min(2u, rank)` followed by the loop increment
re-enters at `rank - min 2 rank + 1`; a rejected move is reverted by a
second `moveUp(rank)`.  The fuel argument truncates the (input-dependent)
iteration count; every theorem below holds for every fuel. -/
def odlRanksLoop (t : BTree) (f : DatedTree → ℚ) (maxRank : Nat) :
    Nat → Nat → DatedTree → ℚ → Option SSState →
    DatedTree × ℚ × Option SSState
  | 0, _, s, bestLL, st => (s, bestLL, st)
  | fuel + 1, rank, s, bestLL, st =>
    if maxRank ≤ rank then (s, bestLL, st)
    else if (DatedTree.moveUp t s rank).1 = false then
      odlRanksLoop t f maxRank fuel (rank + 1) (DatedTree.moveUp t s rank).2
        bestLL st
    else if bestLL < f (DatedTree.moveUp t s rank).2 then
      odlRanksLoop t f maxRank fuel (rank - min 2 rank + 1)
        (DatedTree.moveUp t s rank).2 (f (DatedTree.moveUp t s rank).2)
        (odlUpdateState (f (DatedTree.moveUp t s rank).2) st)
    else
      odlRanksLoop t f maxRank fuel (rank + 1)
        (DatedTree.moveUp t (DatedTree.moveUp t s rank).2 rank).2 bestLL
        (odlUpdateState (f (DatedTree.moveUp t s rank).2) st)

/-- The outer `do { ... } while (bestLL - initialItLL > 1.0)` loop of
`optimizeDatesLocal` (lines 30-57). -/
def odlOuterLoop (t : BTree) (f : DatedTree → ℚ) (maxRank innerFuel : Nat) :
    Nat → DatedTree → ℚ → Option SSState → DatedTree × ℚ × Option SSState
  | 0, s, bestLL, st => (s, bestLL, st)
  | fuel + 1, s, bestLL, st =>
    if 1 < (odlRanksLoop t f maxRank innerFuel 0 s bestLL st).2.1 - bestLL then
      odlOuterLoop t f maxRank innerFuel fuel
        (odlRanksLoop t f maxRank innerFuel 0 s bestLL st).1
        (odlRanksLoop t f maxRank innerFuel 0 s bestLL st).2.1
        (odlRanksLoop t f maxRank innerFuel 0 s bestLL st).2.2
    else odlRanksLoop t f maxRank innerFuel 0 s bestLL st

/-- `optimizeDatesLocal` (DatedSpeciesTreeSearch.cpp lines 17-63):
`bestLL` starts as the evaluator's value at entry, `maxRank` is the
number of internal nodes. -/
def optimizeDatesLocal (t : BTree) (f : DatedTree → ℚ)
    (innerFuel outerFuel : Nat) (s : DatedTree) (st : Option SSState) :
    DatedTree × ℚ × Option SSState :=
  odlOuterLoop t f t.innerCount innerFuel outerFuel s (f s) st

/-- Loop invariant of the inner rank loop: the state stays well-formed,
the running best is achieved by the current state, and the best never
decreases. -/
theorem odlRanksLoop_spec (t : BTree) (f : DatedTree → ℚ) (maxRank : Nat)
    (hw : t.wfT) : ∀ (fuel rank : Nat) (s : DatedTree) (bestLL : ℚ)
    (st : Option SSState), WF t s → f s = bestLL →
    WF t (odlRanksLoop t f maxRank fuel rank s bestLL st).1 ∧
    f (odlRanksLoop t f maxRank fuel rank s bestLL st).1 =
      (odlRanksLoop t f maxRank fuel rank s bestLL st).2.1 ∧
    bestLL ≤ (odlRanksLoop t f maxRank fuel rank s bestLL st).2.1 := by
  intro fuel
  induction fuel with
  | zero =>
    intro rank s bestLL st hWF hf
    exact ⟨hWF, hf, le_refl _⟩
  | succ fuel ih =>
    intro rank s bestLL st hWF hf
    have hstep : odlRanksLoop t f maxRank (fuel + 1) rank s bestLL st =
        (if maxRank ≤ rank then (s, bestLL, st)
        else if (DatedTree.moveUp t s rank).1 = false then
          odlRanksLoop t f maxRank fuel (rank + 1)
            (DatedTree.moveUp t s rank).2 bestLL st
        else if bestLL < f (DatedTree.moveUp t s rank).2 then
          odlRanksLoop t f maxRank fuel (rank - min 2 rank + 1)
            (DatedTree.moveUp t s rank).2 (f (DatedTree.moveUp t s rank).2)
            (odlUpdateState (f (DatedTree.moveUp t s rank).2) st)
        else
          odlRanksLoop t f maxRank fuel (rank + 1)
            (DatedTree.moveUp t (DatedTree.moveUp t s rank).2 rank).2 bestLL
            (odlUpdateState (f (DatedTree.moveUp t s rank).2) st)) := rfl
    rw [hstep]
    by_cases hr : maxRank ≤ rank
    · rw [if_pos hr]
      exact ⟨hWF, hf, le_refl _⟩
    · rw [if_neg hr]
      by_cases hm : (DatedTree.moveUp t s rank).1 = false
      · rw [if_pos hm]
        have hnm := moveUp_no_mutation t s rank hm
        have hWF1 : WF t (DatedTree.moveUp t s rank).2 := by
          rw [hnm]
          exact hWF
        have hf1 : f (DatedTree.moveUp t s rank).2 = bestLL := by
          rw [hnm]
          exact hf
        exact ih (rank + 1) _ bestLL st hWF1 hf1
      · rw [if_neg hm]
        have hms : (DatedTree.moveUp t s rank).1 = true := by
          revert hm
          cases (DatedTree.moveUp t s rank).1 <;> simp
        have hWF' : WF t (DatedTree.moveUp t s rank).2 :=
          moveUp_WF t s rank hw hWF
        by_cases hacc : bestLL < f (DatedTree.moveUp t s rank).2
        · rw [if_pos hacc]
          obtain ⟨hW, hfe, hle⟩ := ih (rank - min 2 rank + 1) _ _
            (odlUpdateState (f (DatedTree.moveUp t s rank).2) st) hWF' rfl
          exact ⟨hW, hfe, le_trans (le_of_lt hacc) hle⟩
        · rw [if_neg hacc]
          have hrev := (moveUp_invol t s rank hw hWF hms).2
          have hWF2 : WF t
              (DatedTree.moveUp t (DatedTree.moveUp t s rank).2 rank).2 := by
            rw [hrev]
            exact hWF
          have hf2 : f
              (DatedTree.moveUp t (DatedTree.moveUp t s rank).2 rank).2 =
              bestLL := by
            rw [hrev]
            exact hf
          exact ih (rank + 1) _ bestLL
            (odlUpdateState (f (DatedTree.moveUp t s rank).2) st) hWF2 hf2

/-- Loop invariant of the outer do-while loop. -/
theorem odlOuterLoop_spec (t : BTree) (f : DatedTree → ℚ)
    (maxRank innerFuel : Nat) (hw : t.wfT) :
    ∀ (fuel : Nat) (s : DatedTree) (bestLL : ℚ) (st : Option SSState),
    WF t s → f s = bestLL →
    WF t (odlOuterLoop t f maxRank innerFuel fuel s bestLL st).1 ∧
    f (odlOuterLoop t f maxRank innerFuel fuel s bestLL st).1 =
      (odlOuterLoop t f maxRank innerFuel fuel s bestLL st).2.1 ∧
    bestLL ≤ (odlOuterLoop t f maxRank innerFuel fuel s bestLL st).2.1 := by
  intro fuel
  induction fuel with
  | zero =>
    intro s bestLL st hWF hf
    exact ⟨hWF, hf, le_refl _⟩
  | succ fuel ih =>
    intro s bestLL st hWF hf
    obtain ⟨hW, hfe, hle⟩ :=
      odlRanksLoop_spec t f maxRank hw innerFuel 0 s bestLL st hWF hf
    have hstep : odlOuterLoop t f maxRank innerFuel (fuel + 1) s bestLL st =
        (if 1 < (odlRanksLoop t f maxRank innerFuel 0 s bestLL st).2.1 - bestLL
        then odlOuterLoop t f maxRank innerFuel fuel
          (odlRanksLoop t f maxRank innerFuel 0 s bestLL st).1
          (odlRanksLoop t f maxRank innerFuel 0 s bestLL st).2.1
          (odlRanksLoop t f maxRank innerFuel 0 s bestLL st).2.2
        else odlRanksLoop t f maxRank innerFuel 0 s bestLL st) := rfl
    rw [hstep]
    by_cases hagain :
        1 < (odlRanksLoop t f maxRank innerFuel 0 s bestLL st).2.1 - bestLL
    · rw [if_pos hagain]
      obtain ⟨hW2, hfe2, hle2⟩ := ih
        (odlRanksLoop t f maxRank innerFuel 0 s bestLL st).1
        (odlRanksLoop t f maxRank innerFuel 0 s bestLL st).2.1
        (odlRanksLoop t f maxRank innerFuel 0 s bestLL st).2.2 hW hfe
      exact ⟨hW2, hfe2, le_trans hle hle2⟩
    · rw [if_neg hagain]
      exact ⟨hW, hfe, hle⟩

/-- **C2**: with the likelihood a deterministic function `f` of the dated
state, `optimizeDatesLocal` returns a best score at least `f` of the entry
state, the returned state achieves exactly the returned best score (at any
loop truncation), and every rejected move is reverted by a second
`moveUp(rank)` restoring the pre-move state exactly. -/
theorem C2_optimizeDatesLocal_spec (t : BTree) (f : DatedTree → ℚ)
    (innerFuel outerFuel : Nat) (s : DatedTree) (st : Option SSState)
    (hw : t.wfT) (hWF : WF t s) :
    f s ≤ (optimizeDatesLocal t f innerFuel outerFuel s st).2.1 ∧
    f (optimizeDatesLocal t f innerFuel outerFuel s st).1 =
      (optimizeDatesLocal t f innerFuel outerFuel s st).2.1 ∧
    ∀ (s' : DatedTree) (r : Nat), WF t s' →
      (DatedTree.moveUp t s' r).1 = true →
      (DatedTree.moveUp t (DatedTree.moveUp t s' r).2 r).2 = s' := by
  obtain ⟨hW, hfe, hle⟩ := odlOuterLoop_spec t f t.innerCount innerFuel hw
    outerFuel s (f s) st hWF rfl
  exact ⟨hle, hfe, fun s' r hWF' hms => (moveUp_invol t s' r hw hWF' hms).2⟩

/-- C2 witness: the sample tree and state with a constant evaluator. -/
theorem C2_optimizeDatesLocal_spec_witness :
    sampleTree.wfT ∧ WF sampleTree sampleState ∧
    (0 : ℚ) ≤ (optimizeDatesLocal sampleTree (fun _ => (0 : ℚ)) 8 2
      sampleState none).2.1 :=
  ⟨by decide, by decide,
    (C2_optimizeDatesLocal_spec sampleTree (fun _ => (0 : ℚ)) 8 2
      sampleState none (by decide) (by decide)).1⟩

/-! ## C1 groundwork: perturbateDates (DatedSpeciesTreeSearch.cpp 68-98) -/

/-- Truncation to a 32-bit unsigned value. -/
def u32 (n : Nat) : Nat := n % 4294967296

/-- 32-bit unsigned subtraction with wraparound (`a - b` on
`unsigned int`). -/
def u32sub (a b : Nat) : Nat := (u32 a + 4294967296 - u32 b) % 4294967296

/-- The inner `for (j = 0; j < displacement; ++j)` loop of
`perturbateDates` for one `k`: the Bool result is `false` when a move
failed (the `k = nodesToMove, j = displacement` double break).  The rank
arguments `rank + k - j` and `rank - k + j` are unsigned-int expressions
and wrap around on underflow. -/
def perturbJs (t : BTree) (isUp : Bool) (rank k : Nat) :
    List Nat → DatedTree → DatedTree × Bool
  | [], s => (s, true)
  | j :: js, s =>
    match isUp with
    | true =>
      if (DatedTree.moveUp t s (u32sub (rank + k) j)).1 then
        perturbJs t isUp rank k js
          (DatedTree.moveUp t s (u32sub (rank + k) j)).2
      else ((DatedTree.moveUp t s (u32sub (rank + k) j)).2, false)
    | false =>
      if (DatedTree.moveDown t s (u32 (u32sub rank k + j))).1 then
        perturbJs t isUp rank k js
          (DatedTree.moveDown t s (u32 (u32sub rank k + j))).2
      else ((DatedTree.moveDown t s (u32 (u32sub rank k + j))).2, false)

/-- The outer `for (k = 0; k < nodesToMove; ++k)` loop of
`perturbateDates`, stopping early when the inner loop broke. -/
def perturbKs (t : BTree) (isUp : Bool) (rank displacement : Nat) :
    List Nat → DatedTree → DatedTree
  | [], s => s
  | k :: ks, s =>
    if (perturbJs t isUp rank k (List.range displacement) s).2 then
      perturbKs t isUp rank displacement ks
        (perturbJs t isUp rank k (List.range displacement) s).1
    else (perturbJs t isUp rank k (List.range displacement) s).1

/-- `perturbateDates` (DatedSpeciesTreeSearch.cpp lines 68-98).  Each
iteration draws `isUp`, `rank`, `displacement` and `nodesToMove` from the
RNG in source order.  The iteration count (`N * 2.0 * perturbation`) and
the displacement bound (`max(2, sqrt(N) * 2.0 * perturbation)`) are
binary64 expressions of `N` and `perturbation` only; every property
proved below holds for all of their values, so they are taken as the
parameters `perts` and `maxDisp` instead of modelling binary64
rounding. -/
def perturbateDates (t : BTree) (maxDisp : Nat) :
    Nat → DatedTree → Rng → DatedTree × Rng
  | 0, s, rng => (s, rng)
  | i + 1, s, rng =>
    perturbateDates t maxDisp i
      (perturbKs t rng.nextBool.1 (rng.nextBool.2.nextInt.1 % t.innerCount)
        (1 + rng.nextBool.2.nextInt.2.nextInt.1 % maxDisp)
        (List.range (1 + rng.nextBool.2.nextInt.2.nextInt.2.nextInt.1 % 10))
        s)
      rng.nextBool.2.nextInt.2.nextInt.2.nextInt.2

/-- The inner perturbation loop preserves well-formedness and the
`fromBL` flag. -/
theorem perturbJs_WF (t : BTree) (isUp : Bool) (rank k : Nat)
    (hw : t.wfT) : ∀ (js : List Nat) (s : DatedTree), WF t s →
    WF t (perturbJs t isUp rank k js s).1 ∧
    (perturbJs t isUp rank k js s).1.fromBL = s.fromBL := by
  intro js
  induction js with
  | nil => intro s h; exact ⟨h, rfl⟩
  | cons j js ih =>
    intro s h
    cases isUp with
    | true =>
      by_cases hm : (DatedTree.moveUp t s (u32sub (rank + k) j)).1 = true
      · have hstep : perturbJs t true rank k (j :: js) s =
            perturbJs t true rank k js
              (DatedTree.moveUp t s (u32sub (rank + k) j)).2 := by
          show (if (DatedTree.moveUp t s (u32sub (rank + k) j)).1 then
              perturbJs t true rank k js
                (DatedTree.moveUp t s (u32sub (rank + k) j)).2
            else ((DatedTree.moveUp t s (u32sub (rank + k) j)).2, false)) = _
          rw [if_pos hm]
        rw [hstep]
        obtain ⟨h1, h2⟩ := ih _ (moveUp_WF t s (u32sub (rank + k) j) hw h)
        exact ⟨h1, h2.trans (moveUp_fromBL t s (u32sub (rank + k) j))⟩
      · have hstep : perturbJs t true rank k (j :: js) s =
            ((DatedTree.moveUp t s (u32sub (rank + k) j)).2, false) := by
          show (if (DatedTree.moveUp t s (u32sub (rank + k) j)).1 then
              perturbJs t true rank k js
                (DatedTree.moveUp t s (u32sub (rank + k) j)).2
            else ((DatedTree.moveUp t s (u32sub (rank + k) j)).2, false)) = _
          rw [if_neg hm]
        rw [hstep]
        exact ⟨moveUp_WF t s (u32sub (rank + k) j) hw h,
          moveUp_fromBL t s (u32sub (rank + k) j)⟩
    | false =>
      by_cases hm : (DatedTree.moveDown t s (u32 (u32sub rank k + j))).1 = true
      · have hstep : perturbJs t false rank k (j :: js) s =
            perturbJs t false rank k js
              (DatedTree.moveDown t s (u32 (u32sub rank k + j))).2 := by
          show (if (DatedTree.moveDown t s (u32 (u32sub rank k + j))).1 then
              perturbJs t false rank k js
                (DatedTree.moveDown t s (u32 (u32sub rank k + j))).2
            else ((DatedTree.moveDown t s (u32 (u32sub rank k + j))).2,
              false)) = _
          rw [if_pos hm]
        rw [hstep]
        obtain ⟨h1, h2⟩ := ih _ (moveDown_WF t s (u32 (u32sub rank k + j)) hw h)
        exact ⟨h1, h2.trans (moveDown_fromBL t s (u32 (u32sub rank k + j)))⟩
      · have hstep : perturbJs t false rank k (j :: js) s =
            ((DatedTree.moveDown t s (u32 (u32sub rank k + j))).2, false) := by
          show (if (DatedTree.moveDown t s (u32 (u32sub rank k + j))).1 then
              perturbJs t false rank k js
                (DatedTree.moveDown t s (u32 (u32sub rank k + j))).2
            else ((DatedTree.moveDown t s (u32 (u32sub rank k + j))).2,
              false)) = _
          rw [if_neg hm]
        rw [hstep]
        exact ⟨moveDown_WF t s (u32 (u32sub rank k + j)) hw h,
          moveDown_fromBL t s (u32 (u32sub rank k + j))⟩

/-- The outer perturbation loop preserves well-formedness and `fromBL`. -/
theorem perturbKs_WF (t : BTree) (isUp : Bool) (rank displacement : Nat)
    (hw : t.wfT) : ∀ (ks : List Nat) (s : DatedTree), WF t s →
    WF t (perturbKs t isUp rank displacement ks s) ∧
    (perturbKs t isUp rank displacement ks s).fromBL = s.fromBL := by
  intro ks
  induction ks with
  | nil => intro s h; exact ⟨h, rfl⟩
  | cons k ks ih =>
    intro s h
    obtain ⟨hj1, hj2⟩ := perturbJs_WF t isUp rank k hw (List.range displacement) s h
    by_cases hb : (perturbJs t isUp rank k (List.range displacement) s).2 = true
    · have hstep : perturbKs t isUp rank displacement (k :: ks) s =
          perturbKs t isUp rank displacement ks
            (perturbJs t isUp rank k (List.range displacement) s).1 := by
        show (if (perturbJs t isUp rank k (List.range displacement) s).2 then
            perturbKs t isUp rank displacement ks
              (perturbJs t isUp rank k (List.range displacement) s).1
          else (perturbJs t isUp rank k (List.range displacement) s).1) = _
        rw [if_pos hb]
      rw [hstep]
      obtain ⟨h1, h2⟩ := ih _ hj1
      exact ⟨h1, h2.trans hj2⟩
    · have hstep : perturbKs t isUp rank displacement (k :: ks) s =
          (perturbJs t isUp rank k (List.range displacement) s).1 := by
        show (if (perturbJs t isUp rank k (List.range displacement) s).2 then
            perturbKs t isUp rank displacement ks
              (perturbJs t isUp rank k (List.range displacement) s).1
          else (perturbJs t isUp rank k (List.range displacement) s).1) = _
        rw [if_neg hb]
      rw [hstep]
      exact ⟨hj1, hj2⟩

/-- `perturbateDates` preserves well-formedness and `fromBL`. -/
theorem perturbateDates_WF (t : BTree) (maxDisp : Nat) (hw : t.wfT) :
    ∀ (n : Nat) (s : DatedTree) (rng : Rng), WF t s →
    WF t (perturbateDates t maxDisp n s rng).1 ∧
    (perturbateDates t maxDisp n s rng).1.fromBL = s.fromBL := by
  intro n
  induction n with
  | zero => intro s rng h; exact ⟨h, rfl⟩
  | succ i ih =>
    intro s rng h
    obtain ⟨hk1, hk2⟩ := perturbKs_WF t rng.nextBool.1
      (rng.nextBool.2.nextInt.1 % t.innerCount)
      (1 + rng.nextBool.2.nextInt.2.nextInt.1 % maxDisp) hw
      (List.range (1 + rng.nextBool.2.nextInt.2.nextInt.2.nextInt.1 % 10)) s h
    obtain ⟨h1, h2⟩ := ih _ rng.nextBool.2.nextInt.2.nextInt.2.nextInt.2 hk1
    exact ⟨h1, h2.trans hk2⟩

/-- The inner rank loop of `optimizeDatesLocal` preserves `fromBL`. -/
theorem odlRanksLoop_fromBL (t : BTree) (f : DatedTree → ℚ) (maxRank : Nat) :
    ∀ (fuel rank : Nat) (s : DatedTree) (bestLL : ℚ) (st : Option SSState),
    (odlRanksLoop t f maxRank fuel rank s bestLL st).1.fromBL = s.fromBL := by
  intro fuel
  induction fuel with
  | zero => intro rank s bestLL st; rfl
  | succ fuel ih =>
    intro rank s bestLL st
    have hstep : odlRanksLoop t f maxRank (fuel + 1) rank s bestLL st =
        (if maxRank ≤ rank then (s, bestLL, st)
        else if (DatedTree.moveUp t s rank).1 = false then
          odlRanksLoop t f maxRank fuel (rank + 1)
            (DatedTree.moveUp t s rank).2 bestLL st
        else if bestLL < f (DatedTree.moveUp t s rank).2 then
          odlRanksLoop t f maxRank fuel (rank - min 2 rank + 1)
            (DatedTree.moveUp t s rank).2 (f (DatedTree.moveUp t s rank).2)
            (odlUpdateState (f (DatedTree.moveUp t s rank).2) st)
        else
          odlRanksLoop t f maxRank fuel (rank + 1)
            (DatedTree.moveUp t (DatedTree.moveUp t s rank).2 rank).2 bestLL
            (odlUpdateState (f (DatedTree.moveUp t s rank).2) st)) := rfl
    rw [hstep]
    by_cases hr : maxRank ≤ rank
    · rw [if_pos hr]
    · rw [if_neg hr]
      by_cases hm : (DatedTree.moveUp t s rank).1 = false
      · rw [if_pos hm]
        exact (ih (rank + 1) _ bestLL st).trans (moveUp_fromBL t s rank)
      · rw [if_neg hm]
        by_cases hacc : bestLL < f (DatedTree.moveUp t s rank).2
        · rw [if_pos hacc]
          exact (ih _ _ _ _).trans (moveUp_fromBL t s rank)
        · rw [if_neg hacc]
          refine (ih _ _ _ _).trans ?_
          exact (moveUp_fromBL t (DatedTree.moveUp t s rank).2 rank).trans
            (moveUp_fromBL t s rank)

/-- The outer loop of `optimizeDatesLocal` preserves `fromBL`. -/
theorem odlOuterLoop_fromBL (t : BTree) (f : DatedTree → ℚ)
    (maxRank innerFuel : Nat) :
    ∀ (fuel : Nat) (s : DatedTree) (bestLL : ℚ) (st : Option SSState),
    (odlOuterLoop t f maxRank innerFuel fuel s bestLL st).1.fromBL =
      s.fromBL := by
  intro fuel
  induction fuel with
  | zero => intro s bestLL st; rfl
  | succ fuel ih =>
    intro s bestLL st
    have hstep : odlOuterLoop t f maxRank innerFuel (fuel + 1) s bestLL st =
        (if 1 < (odlRanksLoop t f maxRank innerFuel 0 s bestLL st).2.1 - bestLL
        then odlOuterLoop t f maxRank innerFuel fuel
          (odlRanksLoop t f maxRank innerFuel 0 s bestLL st).1
          (odlRanksLoop t f maxRank innerFuel 0 s bestLL st).2.1
          (odlRanksLoop t f maxRank innerFuel 0 s bestLL st).2.2
        else odlRanksLoop t f maxRank innerFuel 0 s bestLL st) := rfl
    rw [hstep]
    by_cases hagain :
        1 < (odlRanksLoop t f maxRank innerFuel 0 s bestLL st).2.1 - bestLL
    · rw [if_pos hagain]
      exact (ih _ _ _).trans (odlRanksLoop_fromBL t f maxRank innerFuel 0 s bestLL st)
    · rw [if_neg hagain]
      exact odlRanksLoop_fromBL t f maxRank innerFuel 0 s bestLL st

/-! ## C1 groundwork: optimizeDates (DatedSpeciesTreeSearch.cpp 100-137) -/

/-- The `if (ll > searchState.bestLL) betterTreeCallback(ll, ...)` update
on a (non-optional) search state. -/
def ssUpdate (ll : ℚ) (ss : SSState) : SSState :=
  if ss.bestLL < ll then betterTreeCallback ll ss else ss

/-- `optimizeDatesLocal` preserves well-formedness, returns a best score
achieved by the returned state and at least the entry score, and keeps
`fromBL`. -/
theorem optimizeDatesLocal_WF (t : BTree) (f : DatedTree → ℚ)
    (innerFuel outerFuel : Nat) (hw : t.wfT) (s : DatedTree)
    (st : Option SSState) (h : WF t s) :
    WF t (optimizeDatesLocal t f innerFuel outerFuel s st).1 ∧
    f (optimizeDatesLocal t f innerFuel outerFuel s st).1 =
      (optimizeDatesLocal t f innerFuel outerFuel s st).2.1 ∧
    f s ≤ (optimizeDatesLocal t f innerFuel outerFuel s st).2.1 ∧
    (optimizeDatesLocal t f innerFuel outerFuel s st).1.fromBL = s.fromBL := by
  obtain ⟨h1, h2, h3⟩ := odlOuterLoop_spec t f t.innerCount innerFuel hw
    outerFuel s (f s) st h rfl
  exact ⟨h1, h2, h3, odlOuterLoop_fromBL t f t.innerCount innerFuel
    outerFuel s (f s) st⟩

/-- One perturbation-plus-local-search trial of `optimizeDates`
(lines 122-124): perturb the dates, then run the local search. -/
def odTrialRun (t : BTree) (f : DatedTree → ℚ)
    (innerFuel outerFuel maxDisp perts : Nat) (s : DatedTree) (ss : SSState)
    (rng : Rng) : (DatedTree × ℚ × Option SSState) × Rng :=
  (optimizeDatesLocal t f innerFuel outerFuel
      (perturbateDates t maxDisp perts s rng).1 (some ss),
   (perturbateDates t maxDisp perts s rng).2)

/-- The `while (thorough && unsuccessfulTrials < maxTrials)` loop of
`optimizeDates` (lines 120-133) with `maxTrials = 2`: each trial backs up
the dating, perturbs, re-optimizes, and keeps the result only when it
improves, restoring the backup otherwise. -/
def odTrials (t : BTree) (f : DatedTree → ℚ)
    (innerFuel outerFuel maxDisp perts : Nat) :
    Nat → Nat → DatedTree → ℚ → SSState → Rng →
    DatedTree × ℚ × SSState × Rng
  | 0, _, s, bestLL, ss, rng => (s, bestLL, ss, rng)
  | fuel + 1, u, s, bestLL, ss, rng =>
    if 2 ≤ u then (s, bestLL, ss, rng)
    else if bestLL <
        (odTrialRun t f innerFuel outerFuel maxDisp perts s ss rng).1.2.1 then
      odTrials t f innerFuel outerFuel maxDisp perts fuel 0
        (odTrialRun t f innerFuel outerFuel maxDisp perts s ss rng).1.1
        (odTrialRun t f innerFuel outerFuel maxDisp perts s ss rng).1.2.1
        (((odTrialRun t f innerFuel outerFuel maxDisp perts s ss rng).1.2.2).getD ss)
        ((odTrialRun t f innerFuel outerFuel maxDisp perts s ss rng).2)
    else
      odTrials t f innerFuel outerFuel maxDisp perts fuel (u + 1)
        (DatedTree.restore
          (odTrialRun t f innerFuel outerFuel maxDisp perts s ss rng).1.1
          s.ranks)
        bestLL
        (((odTrialRun t f innerFuel outerFuel maxDisp perts s ss rng).1.2.2).getD ss)
        ((odTrialRun t f innerFuel outerFuel maxDisp perts s ss rng).2)

/-- The thorough-trial loop preserves well-formedness and `fromBL`, and
never decreases the best score. -/
theorem odTrials_WF (t : BTree) (f : DatedTree → ℚ)
    (innerFuel outerFuel maxDisp perts : Nat) (hw : t.wfT) :
    ∀ (fuel u : Nat) (s : DatedTree) (bestLL : ℚ) (ss : SSState) (rng : Rng),
    WF t s →
    WF t (odTrials t f innerFuel outerFuel maxDisp perts fuel u s bestLL ss rng).1 ∧
    (odTrials t f innerFuel outerFuel maxDisp perts fuel u s bestLL ss rng).1.fromBL
      = s.fromBL ∧
    bestLL ≤ (odTrials t f innerFuel outerFuel maxDisp perts fuel u s bestLL ss rng).2.1 := by
  intro fuel
  induction fuel with
  | zero => intro u s bestLL ss rng h; exact ⟨h, rfl, le_refl _⟩
  | succ fuel ih =>
    intro u s bestLL ss rng h
    have hstep : odTrials t f innerFuel outerFuel maxDisp perts (fuel + 1)
        u s bestLL ss rng =
        (if 2 ≤ u then (s, bestLL, ss, rng)
        else if bestLL <
            (odTrialRun t f innerFuel outerFuel maxDisp perts s ss rng).1.2.1 then
          odTrials t f innerFuel outerFuel maxDisp perts fuel 0
            (odTrialRun t f innerFuel outerFuel maxDisp perts s ss rng).1.1
            (odTrialRun t f innerFuel outerFuel maxDisp perts s ss rng).1.2.1
            (((odTrialRun t f innerFuel outerFuel maxDisp perts s ss rng).1.2.2).getD ss)
            ((odTrialRun t f innerFuel outerFuel maxDisp perts s ss rng).2)
        else
          odTrials t f innerFuel outerFuel maxDisp perts fuel (u + 1)
            (DatedTree.restore
              (odTrialRun t f innerFuel outerFuel maxDisp perts s ss rng).1.1
              s.ranks)
            bestLL
            (((odTrialRun t f innerFuel outerFuel maxDisp perts s ss rng).1.2.2).getD ss)
            ((odTrialRun t f innerFuel outerFuel maxDisp perts s ss rng).2)) := rfl
    rw [hstep]
    obtain ⟨hp1, hp2⟩ := perturbateDates_WF t maxDisp hw perts s rng h
    obtain ⟨ho1, _, _, ho4⟩ := optimizeDatesLocal_WF t f innerFuel outerFuel hw
      (perturbateDates t maxDisp perts s rng).1 (some ss) hp1
    by_cases hu : 2 ≤ u
    · rw [if_pos hu]
      exact ⟨h, rfl, le_refl _⟩
    · rw [if_neg hu]
      by_cases hacc : bestLL <
          (odTrialRun t f innerFuel outerFuel maxDisp perts s ss rng).1.2.1
      · rw [if_pos hacc]
        obtain ⟨h1, h2, h3⟩ := ih 0 _ _ _ _ ho1
        exact ⟨h1, h2.trans (ho4.trans hp2), le_trans (le_of_lt hacc) h3⟩
      · rw [if_neg hacc]
        have hrest : DatedTree.restore
            (odTrialRun t f innerFuel outerFuel maxDisp perts s ss rng).1.1
            s.ranks = s := by
          refine restore_roundtrip s _ h.2.2.1 ?_ ?_ ?_
          · exact (h.1.nodup_iff).mpr hw.1
          · exact ho1.1.trans h.1.symm
          · exact ho4.trans hp2
        rw [hrest]
        exact ih (u + 1) s bestLL _ _ h

/-- `DatedSpeciesTreeSearch::optimizeDates` (DatedSpeciesTreeSearch.cpp
lines 100-137): update the search state against the entry likelihood,
return it directly when the model is undated, otherwise run the local
search followed (when `thorough`) by up to two consecutive unsuccessful
perturbation trials. -/
def optimizeDates (t : BTree) (f : DatedTree → ℚ) (isDatedB thorough : Bool)
    (innerFuel outerFuel odFuel maxDisp perts : Nat)
    (s : DatedTree) (ss : SSState) (rng : Rng) :
    DatedTree × ℚ × SSState × Rng :=
  match isDatedB with
  | false => (s, f s, ssUpdate (f s) ss, rng)
  | true =>
    match thorough with
    | false =>
      ((optimizeDatesLocal t f innerFuel outerFuel s
          (some (ssUpdate (f s) ss))).1,
       (optimizeDatesLocal t f innerFuel outerFuel s
          (some (ssUpdate (f s) ss))).2.1,
       ((optimizeDatesLocal t f innerFuel outerFuel s
          (some (ssUpdate (f s) ss))).2.2).getD (ssUpdate (f s) ss),
       rng)
    | true =>
      odTrials t f innerFuel outerFuel maxDisp perts odFuel 0
        (optimizeDatesLocal t f innerFuel outerFuel s
          (some (ssUpdate (f s) ss))).1
        (optimizeDatesLocal t f innerFuel outerFuel s
          (some (ssUpdate (f s) ss))).2.1
        (((optimizeDatesLocal t f innerFuel outerFuel s
          (some (ssUpdate (f s) ss))).2.2).getD (ssUpdate (f s) ss))
        rng

/-- `optimizeDates` preserves well-formedness and `fromBL`. -/
theorem optimizeDates_WF (t : BTree) (f : DatedTree → ℚ)
    (isDatedB thorough : Bool) (innerFuel outerFuel odFuel maxDisp perts : Nat)
    (hw : t.wfT) (s : DatedTree) (ss : SSState) (rng : Rng) (h : WF t s) :
    WF t (optimizeDates t f isDatedB thorough innerFuel outerFuel odFuel
      maxDisp perts s ss rng).1 ∧
    (optimizeDates t f isDatedB thorough innerFuel outerFuel odFuel
      maxDisp perts s ss rng).1.fromBL = s.fromBL := by
  cases isDatedB with
  | false => exact ⟨h, rfl⟩
  | true =>
    obtain ⟨ho1, _, _, ho4⟩ := optimizeDatesLocal_WF t f innerFuel outerFuel hw
      s (some (ssUpdate (f s) ss)) h
    cases thorough with
    | false => exact ⟨ho1, ho4⟩
    | true =>
      obtain ⟨h1, h2, _⟩ := odTrials_WF t f innerFuel outerFuel maxDisp perts
        hw odFuel 0
        (optimizeDatesLocal t f innerFuel outerFuel s
          (some (ssUpdate (f s) ss))).1
        (optimizeDatesLocal t f innerFuel outerFuel s
          (some (ssUpdate (f s) ss))).2.1
        (((optimizeDatesLocal t f innerFuel outerFuel s
          (some (ssUpdate (f s) ss))).2.2).getD (ssUpdate (f s) ss))
        rng ho1
      exact ⟨h1, h2.trans ho4⟩

/-! ## C1: SpeciesRootSearch (SpeciesRootSearch.cpp) -/

/-- Modelled from the spec: the environment of the root search.  The
wrapped `PLLRootedTree`, `SpeciesTreeOperator::canChangeRoot/changeRoot/
revertChangeRoot` and the likelihood evaluator live outside this
repository.  A root position is modelled as the list of directions
applied from the initial root: `changeRoot(d)` appends `d`,
`revertChangeRoot(d)` undoes it, `canCR pos d` abstracts
`canChangeRoot`, and `f pos dt` abstracts `computeLikelihood` as a
deterministic function of the root position and the dating.  The fuel
and count fields instantiate the corresponding `optimizeDates`
parameters. -/
structure RSEnv where
  canCR : List Nat → Nat → Bool
  f : List Nat → DatedTree → ℚ
  isDatedB : Bool
  innerFuel : Nat
  outerFuel : Nat
  odFuel : Nat
  maxDisp : Nat
  perts : Nat

/-- The mutable state threaded through the root search: root position,
dating, the evaluator rollback stack (`pushRollback` saves a snapshot,
`popAndApplyRollback` pops it), the moves history, the search state and
the RNG. -/
structure RSState where
  pos : List Nat
  dt : DatedTree
  stack : List (List Nat × DatedTree)
  hist : List Nat
  ss : SSState
  rng : Rng

/-- The best-root record of `rootSearch`: `bestLL`, `bestMovesHistory`
and `bestDatedBackup`. -/
structure RSBest where
  ll : ℚ
  hist : List Nat
  backup : DatedBackup

/-- The `optimizeDates` call performed after `changeRoot(d)`
(SpeciesRootSearch.cpp lines 30-32), with `thorough =
!searchState.farFromPlausible`. -/
def rsChanged (t : BTree) (env : RSEnv) (d : Nat) (st : RSState) :
    DatedTree × ℚ × SSState × Rng :=
  optimizeDates t (env.f (st.pos ++ [d])) env.isDatedB
    (!st.ss.farFromPlausible) env.innerFuel env.outerFuel env.odFuel
    env.maxDisp env.perts st.dt st.ss st.rng

/-- The likelihood recomputed after the date optimization (line 34). -/
def rsLL (t : BTree) (env : RSEnv) (d : Nat) (st : RSState) : ℚ :=
  env.f (st.pos ++ [d]) (rsChanged t env d st).1

/-- The state after lines 27-34: history and rollback pushed, root
changed, dates optimized. -/
def rsState2 (t : BTree) (env : RSEnv) (d : Nat) (st : RSState) : RSState :=
  { pos := st.pos ++ [d], dt := (rsChanged t env d st).1,
    stack := st.stack ++ [(st.pos, st.dt)], hist := st.hist ++ [d],
    ss := (rsChanged t env d st).2.2.1, rng := (rsChanged t env d st).2.2.2 }

/-- The best-record update of lines 52-57. -/
def rsBest2 (t : BTree) (env : RSEnv) (d : Nat) (st : RSState)
    (best : RSBest) : RSBest :=
  if best.ll < rsLL t env d st then
    { ll := rsLL t env d st, hist := st.hist ++ [d],
      backup := (rsChanged t env d st).1.ranks }
  else best

/-- The `bestLLStack` update of lines 48-51. -/
def rsBLLs (b ll : ℚ) : ℚ := if b < ll then ll else b

/-- The `newMaxDepth` computation of lines 47-51. -/
def rsNewMaxD (b ll : ℚ) (maxD histLen : Nat) : Nat :=
  if b < ll then histLen + 2 else maxD

/-- The per-direction cleanup of lines 61-64: revert the root change,
restore the dating backup, pop the rollback, pop the history. -/
def rsRestore (stR : RSState) (backup : DatedBackup) : RSState :=
  { pos := stR.pos.dropLast, dt := DatedTree.restore stR.dt backup,
    stack := stR.stack.dropLast, hist := stR.hist.dropLast,
    ss := stR.ss, rng := stR.rng }

/-- The `for (auto direction : moves)` loop of `rootSearchAux`
(lines 23-65), parameterized by the recursive invocation `recur` (the
call of line 58, whose own depth guard and moves computation live in
`rsAux`). -/
def rsDirsGo (recur : RSState → RSBest → ℚ → Nat → RSState × RSBest)
    (t : BTree) (env : RSEnv) :
    List Nat → RSState → RSBest → ℚ → Nat → RSState × RSBest
  | [], st, best, _, _ => (st, best)
  | d :: ds, st, best, bLLs, maxD =>
    if env.canCR st.pos d then
      rsDirsGo recur t env ds
        (rsRestore
          (recur (rsState2 t env d st) (rsBest2 t env d st best)
            (rsBLLs bLLs (rsLL t env d st))
            (rsNewMaxD bLLs (rsLL t env d st) maxD
              (st.hist ++ [d]).length)).1
          st.dt.ranks)
        (recur (rsState2 t env d st) (rsBest2 t env d st best)
          (rsBLLs bLLs (rsLL t env d st))
          (rsNewMaxD bLLs (rsLL t env d st) maxD
            (st.hist ++ [d]).length)).2
        (rsBLLs bLLs (rsLL t env d st)) maxD
    else rsDirsGo recur t env ds st best bLLs maxD

/-- `rootSearchAux` (SpeciesRootSearch.cpp lines 8-66): depth guard,
moves `[last % 2, 2 + last % 2]`, then the direction loop.  The fuel
bounds the recursion depth; all theorems hold for every fuel. -/
def rsAux (t : BTree) (env : RSEnv) :
    Nat → RSState → RSBest → ℚ → Nat → RSState × RSBest
  | 0, st, best, _, _ => (st, best)
  | fuel + 1, st, best, bLLs, maxD =>
    if maxD < st.hist.length then (st, best)
    else
      rsDirsGo (rsAux t env fuel) t env
        [st.hist.getLastD 0 % 2, 2 + st.hist.getLastD 0 % 2]
        st best bLLs maxD

/-- `SpeciesRootSearch::rootSearch` (SpeciesRootSearch.cpp lines 68-109):
two `rootSearchAux` passes with sentinel history `[1]` then `[0]`
(`movesHistory[0] = 0`), then the best history is replayed from index 1
and the best dated backup restored.  Returns the best likelihood, the
final state, and the best record. -/
def rootSearch (t : BTree) (env : RSEnv) (maxDepth fuel : Nat)
    (s0 : DatedTree) (ss : SSState) (rng : Rng) : ℚ × RSState × RSBest :=
  match rsAux t env fuel
      { pos := [], dt := s0, stack := [], hist := [1], ss := ss, rng := rng }
      { ll := env.f [] s0, hist := [], backup := s0.ranks }
      (env.f [] s0) maxDepth with
  | (st1, b1) =>
    match rsAux t env fuel { st1 with hist := st1.hist.set 0 0 } b1
        (env.f [] s0) maxDepth with
    | (st2, b2) =>
      (b2.ll,
       { st2 with pos := st2.pos ++ b2.hist.drop 1,
                  dt := DatedTree.restore st2.dt b2.backup },
       b2)

/-- Dropping one element distributes over appending a last element. -/
theorem drop_one_concat {α : Type} : ∀ (l : List α) (a : α), l ≠ [] →
    (l ++ [a]).drop 1 = l.drop 1 ++ [a] := by
  intro l a h
  cases l with
  | nil => exact absurd rfl h
  | cons x xs => rfl

/-- The per-invocation invariant of the root search: the dating is
well-formed with a fixed `fromBL`, the root position is the moves history
without its sentinel head, and the history is nonempty (its back is
read). -/
def StInv (t : BTree) (bl : Bool) (st : RSState) : Prop :=
  WF t st.dt ∧ st.dt.fromBL = bl ∧ st.pos = st.hist.drop 1 ∧ st.hist ≠ []

/-- The invariant of the best-root record: its backup is the ranks of a
well-formed dated state that achieves the recorded likelihood at the root
reached by replaying the recorded history from index 1. -/
def BestInv (t : BTree) (env : RSEnv) (bl : Bool) (b : RSBest) : Prop :=
  ∃ sb : DatedTree, WF t sb ∧ sb.fromBL = bl ∧ b.backup = sb.ranks ∧
    b.ll = env.f (b.hist.drop 1) sb

/-- The direction loop restores root position, dating, rollback stack and
history to their entry values, preserves the best-record invariant, and
never decreases the best likelihood — provided the recursive invocation
does. -/
theorem rsDirsGo_spec (t : BTree) (env : RSEnv) (hw : t.wfT) (bl : Bool)
    (recur : RSState → RSBest → ℚ → Nat → RSState × RSBest)
    (hrec : ∀ (st : RSState) (best : RSBest) (bLLs : ℚ) (maxD : Nat),
      StInv t bl st → BestInv t env bl best →
      (recur st best bLLs maxD).1.pos = st.pos ∧
      (recur st best bLLs maxD).1.dt = st.dt ∧
      (recur st best bLLs maxD).1.stack = st.stack ∧
      (recur st best bLLs maxD).1.hist = st.hist ∧
      BestInv t env bl (recur st best bLLs maxD).2 ∧
      best.ll ≤ (recur st best bLLs maxD).2.ll) :
    ∀ (ds : List Nat) (st : RSState) (best : RSBest) (bLLs : ℚ) (maxD : Nat),
      StInv t bl st → BestInv t env bl best →
      (rsDirsGo recur t env ds st best bLLs maxD).1.pos = st.pos ∧
      (rsDirsGo recur t env ds st best bLLs maxD).1.dt = st.dt ∧
      (rsDirsGo recur t env ds st best bLLs maxD).1.stack = st.stack ∧
      (rsDirsGo recur t env ds st best bLLs maxD).1.hist = st.hist ∧
      BestInv t env bl (rsDirsGo recur t env ds st best bLLs maxD).2 ∧
      best.ll ≤ (rsDirsGo recur t env ds st best bLLs maxD).2.ll := by
  intro ds
  induction ds with
  | nil =>
    intro st best bLLs maxD hSt hB
    exact ⟨rfl, rfl, rfl, rfl, hB, le_refl _⟩
  | cons d ds ih =>
    intro st best bLLs maxD hSt hB
    obtain ⟨hWF, hbl, hpos, hne⟩ := hSt
    have hstep : rsDirsGo recur t env (d :: ds) st best bLLs maxD =
        (if env.canCR st.pos d then
          rsDirsGo recur t env ds
            (rsRestore
              (recur (rsState2 t env d st) (rsBest2 t env d st best)
                (rsBLLs bLLs (rsLL t env d st))
                (rsNewMaxD bLLs (rsLL t env d st) maxD
                  (st.hist ++ [d]).length)).1
              st.dt.ranks)
            (recur (rsState2 t env d st) (rsBest2 t env d st best)
              (rsBLLs bLLs (rsLL t env d st))
              (rsNewMaxD bLLs (rsLL t env d st) maxD
                (st.hist ++ [d]).length)).2
            (rsBLLs bLLs (rsLL t env d st)) maxD
        else rsDirsGo recur t env ds st best bLLs maxD) := rfl
    rw [hstep]
    by_cases hcan : env.canCR st.pos d = true
    · rw [if_pos hcan]
      obtain ⟨hWF2, hbl2⟩ := optimizeDates_WF t (env.f (st.pos ++ [d]))
        env.isDatedB (!st.ss.farFromPlausible) env.innerFuel env.outerFuel
        env.odFuel env.maxDisp env.perts hw st.dt st.ss st.rng hWF
      have hSt2 : StInv t bl (rsState2 t env d st) := by
        refine ⟨hWF2, hbl2.trans hbl, ?_, by simp [rsState2]⟩
        show st.pos ++ [d] = (st.hist ++ [d]).drop 1
        rw [drop_one_concat st.hist d hne, hpos]
      have hB2 : BestInv t env bl (rsBest2 t env d st best) ∧
          best.ll ≤ (rsBest2 t env d st best).ll := by
        unfold rsBest2
        by_cases hacc : best.ll < rsLL t env d st
        · rw [if_pos hacc]
          refine ⟨⟨(rsChanged t env d st).1, hWF2, hbl2.trans hbl, rfl, ?_⟩,
            le_of_lt hacc⟩
          show rsLL t env d st =
            env.f ((st.hist ++ [d]).drop 1) (rsChanged t env d st).1
          rw [drop_one_concat st.hist d hne, ← hpos]
          rfl
        · rw [if_neg hacc]
          exact ⟨hB, le_refl _⟩
      set R := recur (rsState2 t env d st) (rsBest2 t env d st best)
        (rsBLLs bLLs (rsLL t env d st))
        (rsNewMaxD bLLs (rsLL t env d st) maxD (st.hist ++ [d]).length)
        with hR
      have HR := hrec (rsState2 t env d st) (rsBest2 t env d st best)
        (rsBLLs bLLs (rsLL t env d st))
        (rsNewMaxD bLLs (rsLL t env d st) maxD (st.hist ++ [d]).length)
        hSt2 hB2.1
      rw [← hR] at HR
      obtain ⟨hr1, hr2, hr3, hr4, hr5, hr6⟩ := HR
      have hp3 : (rsRestore R.1 st.dt.ranks).pos = st.pos := by
        show R.1.pos.dropLast = st.pos
        rw [hr1]
        show (st.pos ++ [d]).dropLast = st.pos
        exact List.dropLast_concat
      have hd3 : (rsRestore R.1 st.dt.ranks).dt = st.dt := by
        show DatedTree.restore R.1.dt st.dt.ranks = st.dt
        rw [hr2]
        show DatedTree.restore (rsChanged t env d st).1 st.dt.ranks = st.dt
        refine restore_roundtrip st.dt _ hWF.2.2.1
          ((hWF.1.nodup_iff).mpr hw.1) ?_ ?_
        · exact hWF2.1.trans hWF.1.symm
        · exact hbl2
      have hs3 : (rsRestore R.1 st.dt.ranks).stack = st.stack := by
        show R.1.stack.dropLast = st.stack
        rw [hr3]
        show (st.stack ++ [(st.pos, st.dt)]).dropLast = st.stack
        exact List.dropLast_concat
      have hh3 : (rsRestore R.1 st.dt.ranks).hist = st.hist := by
        show R.1.hist.dropLast = st.hist
        rw [hr4]
        show (st.hist ++ [d]).dropLast = st.hist
        exact List.dropLast_concat
      have hSt3 : StInv t bl (rsRestore R.1 st.dt.ranks) := by
        refine ⟨?_, ?_, ?_, ?_⟩
        · show WF t (rsRestore R.1 st.dt.ranks).dt
          rw [hd3]
          exact hWF
        · show (rsRestore R.1 st.dt.ranks).dt.fromBL = bl
          rw [hd3]
          exact hbl
        · show (rsRestore R.1 st.dt.ranks).pos =
            (rsRestore R.1 st.dt.ranks).hist.drop 1
          rw [hp3, hh3]
          exact hpos
        · show (rsRestore R.1 st.dt.ranks).hist ≠ []
          rw [hh3]
          exact hne
      obtain ⟨hq1, hq2, hq3, hq4, hq5, hq6⟩ := ih (rsRestore R.1 st.dt.ranks)
        R.2 (rsBLLs bLLs (rsLL t env d st)) maxD hSt3 hr5
      exact ⟨hq1.trans hp3, hq2.trans hd3, hq3.trans hs3, hq4.trans hh3, hq5,
        le_trans hB2.2 (le_trans hr6 hq6)⟩
    · rw [if_neg hcan]
      exact ih st best bLLs maxD ⟨hWF, hbl, hpos, hne⟩ hB

/-- Every `rootSearchAux` invocation restores root position, dating,
rollback stack and moves history to their entry values, preserves the
best-record invariant, and never decreases the best likelihood. -/
theorem rsAux_spec (t : BTree) (env : RSEnv) (hw : t.wfT) (bl : Bool) :
    ∀ (fuel : Nat) (st : RSState) (best : RSBest) (bLLs : ℚ) (maxD : Nat),
      StInv t bl st → BestInv t env bl best →
      (rsAux t env fuel st best bLLs maxD).1.pos = st.pos ∧
      (rsAux t env fuel st best bLLs maxD).1.dt = st.dt ∧
      (rsAux t env fuel st best bLLs maxD).1.stack = st.stack ∧
      (rsAux t env fuel st best bLLs maxD).1.hist = st.hist ∧
      BestInv t env bl (rsAux t env fuel st best bLLs maxD).2 ∧
      best.ll ≤ (rsAux t env fuel st best bLLs maxD).2.ll := by
  intro fuel
  induction fuel with
  | zero =>
    intro st best bLLs maxD hSt hB
    exact ⟨rfl, rfl, rfl, rfl, hB, le_refl _⟩
  | succ fuel ih =>
    intro st best bLLs maxD hSt hB
    have hstep : rsAux t env (fuel + 1) st best bLLs maxD =
        (if maxD < st.hist.length then (st, best)
        else rsDirsGo (rsAux t env fuel) t env
          [st.hist.getLastD 0 % 2, 2 + st.hist.getLastD 0 % 2]
          st best bLLs maxD) := rfl
    rw [hstep]
    by_cases hg : maxD < st.hist.length
    · rw [if_pos hg]
      exact ⟨rfl, rfl, rfl, rfl, hB, le_refl _⟩
    · rw [if_neg hg]
      exact rsDirsGo_spec t env hw bl (rsAux t env fuel) ih
        [st.hist.getLastD 0 % 2, 2 + st.hist.getLastD 0 % 2]
        st best bLLs maxD hSt hB

/-- **C1**: on return from `rootSearch`, the returned `bestLL` is at
least the likelihood computed at entry; the tree's root is the one
reached by replaying the best moves history from index 1, and its dating
is exactly the well-formed dating whose backup was saved when `bestLL`
was last updated, so root and dating together produce `bestLL`; moreover
every `rootSearchAux` invocation restores the root, the dating, the
rollback stack and the moves history to their entry state. -/
theorem C1_rootSearch_spec (t : BTree) (env : RSEnv) (maxDepth fuel : Nat)
    (s0 : DatedTree) (ss : SSState) (rng : Rng)
    (hw : t.wfT) (hWF : WF t s0) :
    env.f [] s0 ≤ (rootSearch t env maxDepth fuel s0 ss rng).1 ∧
    (rootSearch t env maxDepth fuel s0 ss rng).2.1.pos =
      (rootSearch t env maxDepth fuel s0 ss rng).2.2.hist.drop 1 ∧
    WF t (rootSearch t env maxDepth fuel s0 ss rng).2.1.dt ∧
    (rootSearch t env maxDepth fuel s0 ss rng).2.1.dt.ranks =
      (rootSearch t env maxDepth fuel s0 ss rng).2.2.backup ∧
    (rootSearch t env maxDepth fuel s0 ss rng).1 =
      env.f (rootSearch t env maxDepth fuel s0 ss rng).2.1.pos
        (rootSearch t env maxDepth fuel s0 ss rng).2.1.dt ∧
    (∀ (bl : Bool) (fuel' : Nat) (st : RSState) (best : RSBest) (bLLs : ℚ)
      (maxD : Nat), StInv t bl st → BestInv t env bl best →
      (rsAux t env fuel' st best bLLs maxD).1.pos = st.pos ∧
      (rsAux t env fuel' st best bLLs maxD).1.dt = st.dt ∧
      (rsAux t env fuel' st best bLLs maxD).1.stack = st.stack ∧
      (rsAux t env fuel' st best bLLs maxD).1.hist = st.hist) := by
  have hSt0 : StInv t s0.fromBL
      { pos := [], dt := s0, stack := [], hist := [1], ss := ss, rng := rng } :=
    ⟨hWF, rfl, rfl, by simp⟩
  have hB0 : BestInv t env s0.fromBL
      { ll := env.f [] s0, hist := [], backup := s0.ranks } :=
    ⟨s0, hWF, rfl, rfl, rfl⟩
  set A1 := rsAux t env fuel
    { pos := [], dt := s0, stack := [], hist := [1], ss := ss, rng := rng }
    { ll := env.f [] s0, hist := [], backup := s0.ranks }
    (env.f [] s0) maxDepth with hA1
  have H1 := rsAux_spec t env hw s0.fromBL fuel
    { pos := [], dt := s0, stack := [], hist := [1], ss := ss, rng := rng }
    { ll := env.f [] s0, hist := [], backup := s0.ranks }
    (env.f [] s0) maxDepth hSt0 hB0
  rw [← hA1] at H1
  obtain ⟨h11, h12, h13, h14, h15, h16⟩ := H1
  have hSt1 : StInv t s0.fromBL { A1.1 with hist := A1.1.hist.set 0 0 } := by
    refine ⟨?_, ?_, ?_, ?_⟩
    · show WF t A1.1.dt
      rw [h12]
      exact hWF
    · show A1.1.dt.fromBL = s0.fromBL
      rw [h12]
    · show A1.1.pos = (A1.1.hist.set 0 0).drop 1
      rw [h11, h14]
      rfl
    · show A1.1.hist.set 0 0 ≠ []
      rw [h14]
      simp
  set A2 := rsAux t env fuel { A1.1 with hist := A1.1.hist.set 0 0 } A1.2
    (env.f [] s0) maxDepth with hA2
  have H2 := rsAux_spec t env hw s0.fromBL fuel
    { A1.1 with hist := A1.1.hist.set 0 0 } A1.2
    (env.f [] s0) maxDepth hSt1 h15
  rw [← hA2] at H2
  obtain ⟨h21, h22, h23, h24, h25, h26⟩ := H2
  obtain ⟨sb, hsbWF, hsbbl, hsbback, hsbll⟩ := h25
  have hstep : rootSearch t env maxDepth fuel s0 ss rng =
      (A2.2.ll,
       { A2.1 with pos := A2.1.pos ++ A2.2.hist.drop 1,
                   dt := DatedTree.restore A2.1.dt A2.2.backup },
       A2.2) := by
    rw [hA2, hA1]
    rfl
  have hpos2 : A2.1.pos = [] := by
    rw [h21]
    show A1.1.pos = []
    rw [h11]
  have hdt2 : A2.1.dt = s0 := by
    rw [h22]
    show A1.1.dt = s0
    rw [h12]
  have hfdt : DatedTree.restore A2.1.dt A2.2.backup = sb := by
    rw [hdt2, hsbback]
    exact restore_roundtrip sb s0 hsbWF.2.2.1 ((hsbWF.1.nodup_iff).mpr hw.1)
      (hWF.1.trans hsbWF.1.symm) hsbbl.symm
  rw [hstep]
  refine ⟨?_, ?_, ?_, ?_, ?_, ?_⟩
  · exact le_trans h16 h26
  · show A2.1.pos ++ A2.2.hist.drop 1 = A2.2.hist.drop 1
    rw [hpos2]
    rfl
  · show WF t (DatedTree.restore A2.1.dt A2.2.backup)
    rw [hfdt]
    exact hsbWF
  · show (DatedTree.restore A2.1.dt A2.2.backup).ranks = A2.2.backup
    rfl
  · show A2.2.ll = env.f (A2.1.pos ++ A2.2.hist.drop 1)
      (DatedTree.restore A2.1.dt A2.2.backup)
    rw [hfdt, hpos2, hsbll]
    rfl
  · intro bl fuel' st best bLLs maxD hSt hB
    obtain ⟨k1, k2, k3, k4, _, _⟩ :=
      rsAux_spec t env hw bl fuel' st best bLLs maxD hSt hB
    exact ⟨k1, k2, k3, k4⟩

/-- C1 witness: the sample tree and state in an environment whose root
moves are all inadmissible and whose evaluator is constant. -/
theorem C1_rootSearch_spec_witness :
    sampleTree.wfT ∧ WF sampleTree sampleState ∧
    (0 : ℚ) ≤ (rootSearch sampleTree
      ⟨fun _ _ => false, fun _ _ => 0, false, 1, 1, 1, 2, 1⟩ 2 3
      sampleState ⟨0, false⟩ ⟨fun _ => 0, 0⟩).1 :=
  ⟨by decide, by decide,
    (C1_rootSearch_spec sampleTree
      ⟨fun _ _ => false, fun _ _ => 0, false, 1, 1, 1, 2, 1⟩ 2 3
      sampleState ⟨0, false⟩ ⟨fun _ => 0, 0⟩
      (by decide) (by decide)).1⟩
